import Mathlib

/-!
# Verification of the timecond condition algebra

This development embeds the core of the `timecond` package — the canonical
date-range sets of `dateRangeImpl.ts` and the condition algebra of
`timeCond.ts` — as executable Lean definitions, and proves properties of
the embedded code.

Instants are JavaScript `Date` values, i.e. integer millisecond counts
since the epoch, interpreted in a fixed local calendar with zero offset
(the ambient host calendar of the package, here taken DST-free).  The
calendar operations below follow the ECMAScript specification of `Date`:
`Day`, `DayFromYear`, `InLeapYear`, `MonthFromTime`, `DateFromTime`,
`MakeDay`, and the component setters.  ECMAScript's `floor` division and
non-negative `modulo` coincide with Lean's `Int` division `/` and `%`
(`Int.ediv` / `Int.emod`) because every divisor used here is positive.
-/

namespace Timecond

/-! ## Calendar: the ECMAScript Date model (fixed zero-offset local time) -/

/-- Day number of an instant: `Day(t) = floor(t / msPerDay)`. -/
def dayNumber (t : Int) : Int := t / 86400000

/-- Millisecond of the day: `TimeWithinDay(t) = t modulo msPerDay`. -/
def timeWithinDay (t : Int) : Int := t % 86400000

/-- Leap-year predicate of the Gregorian calendar (ECMAScript `InLeapYear`). -/
def isLeap (y : Int) : Bool := decide (y % 4 = 0 ∧ (y % 100 ≠ 0 ∨ y % 400 = 0))

/-- Number of leap days contributed by year `y`: 1 in leap years, else 0. -/
def leapIdx (y : Int) : Int := if isLeap y then 1 else 0

/-- ECMAScript `DayFromYear(y)`: the day number of 1 January of year `y`. -/
def dayFromYear (y : Int) : Int :=
  365 * (y - 1970) + (y - 1969) / 4 - (y - 1901) / 100 + (y - 1601) / 400

/-- ECMAScript `YearFromTime` on day numbers: the unique year `y` with
`dayFromYear y ≤ z < dayFromYear (y+1)`, computed by a linear
approximation followed by a correction step (the characterisation is
proved in `yearFromDay_char`). -/
def yearFromDay (z : Int) : Int :=
  if z < dayFromYear ((z * 400) / 146097 + 1970) then (z * 400) / 146097 + 1969
  else if z < dayFromYear ((z * 400) / 146097 + 1971) then (z * 400) / 146097 + 1970
  else (z * 400) / 146097 + 1971

/-- Cumulative number of days before month `m` (0-based) in a year with
leap index `L`; `monthOffset L 12` is the length of the year. -/
def monthOffset (L : Int) (m : Int) : Int :=
  if m ≤ 0 then 0
  else if m = 1 then 31
  else if m = 2 then 59 + L
  else if m = 3 then 90 + L
  else if m = 4 then 120 + L
  else if m = 5 then 151 + L
  else if m = 6 then 181 + L
  else if m = 7 then 212 + L
  else if m = 8 then 243 + L
  else if m = 9 then 273 + L
  else if m = 10 then 304 + L
  else if m = 11 then 334 + L
  else 365 + L

/-- ECMAScript `MonthFromTime` given the day within the year. -/
def monthFromDayWithinYear (L : Int) (w : Int) : Int :=
  if w < 31 then 0
  else if w < 59 + L then 1
  else if w < 90 + L then 2
  else if w < 120 + L then 3
  else if w < 151 + L then 4
  else if w < 181 + L then 5
  else if w < 212 + L then 6
  else if w < 243 + L then 7
  else if w < 273 + L then 8
  else if w < 304 + L then 9
  else if w < 334 + L then 10
  else 11

/-- Day within the year of a day number. -/
def dayWithinYear (z : Int) : Int := z - dayFromYear (yearFromDay z)

/-- Month (0–11) of a day number. -/
def monthOfDay (z : Int) : Int :=
  monthFromDayWithinYear (leapIdx (yearFromDay z)) (dayWithinYear z)

/-- Day of the month (1–31) of a day number. -/
def dateOfDay (z : Int) : Int :=
  dayWithinYear z - monthOffset (leapIdx (yearFromDay z)) (monthOfDay z) + 1

/-- `Date.prototype.getFullYear`. -/
def getFullYear (t : Int) : Int := yearFromDay (dayNumber t)

/-- `Date.prototype.getMonth` (0-based). -/
def getMonth (t : Int) : Int := monthOfDay (dayNumber t)

/-- `Date.prototype.getDate` (day of month, 1-based). -/
def getDate (t : Int) : Int := dateOfDay (dayNumber t)

/-- `Date.prototype.getDay`: 0 = Sunday … 6 = Saturday; the epoch day was
a Thursday (= 4). -/
def getDay (t : Int) : Int := (dayNumber t + 4) % 7

/-- `Date.prototype.getHours`. -/
def getHours (t : Int) : Int := (t / 3600000) % 24

/-- `Date.prototype.getMinutes`. -/
def getMinutes (t : Int) : Int := (t / 60000) % 60

/-- `Date.prototype.getSeconds`. -/
def getSeconds (t : Int) : Int := (t / 1000) % 60

/-- `Date.prototype.getMilliseconds`. -/
def getMilliseconds (t : Int) : Int := t % 1000

/-- ECMAScript `MakeDay(y, m, d)`: day number of the (normalised) civil
date; month and day may lie outside their canonical ranges. -/
def makeDayNum (y m d : Int) : Int :=
  dayFromYear (y + m / 12) + monthOffset (leapIdx (y + m / 12)) (m % 12) + (d - 1)

/-- The instant `new Date(y, mo, d, h, mi, s, ms)` of the local calendar. -/
def mkTime (y mo d h mi s ms : Int) : Int :=
  makeDayNum y mo d * 86400000 + h * 3600000 + mi * 60000 + s * 1000 + ms

/-- `setHours(h, mi, s, ms)` applied to `t` (keeps the civil day). -/
def setHMSms (t h mi s ms : Int) : Int :=
  dayNumber t * 86400000 + h * 3600000 + mi * 60000 + s * 1000 + ms

/-- `setDate(n)` applied to `t` (keeps year, month and time of day). -/
def setDate (t n : Int) : Int :=
  makeDayNum (getFullYear t) (getMonth t) n * 86400000 + timeWithinDay t

/-- `setMonth(m)` applied to `t` (keeps year, day of month, time of day). -/
def setMonth (t m : Int) : Int :=
  makeDayNum (getFullYear t) m (getDate t) * 86400000 + timeWithinDay t

/-- `setFullYear(y)` applied to `t` (keeps month, day of month, time of day). -/
def setFullYear (t y : Int) : Int :=
  makeDayNum y (getMonth t) (getDate t) * 86400000 + timeWithinDay t

/-- `setMilliseconds(ms)` applied to `t`. -/
def setMilliseconds (t ms : Int) : Int := t - t % 1000 + ms

/-- `setSeconds(s)` applied to `t` (keeps the milliseconds). -/
def setSeconds (t s : Int) : Int := (t / 60000) * 60000 + s * 1000 + t % 1000

/-- `setMinutes(mi)` applied to `t` (keeps seconds and milliseconds). -/
def setMinutes (t mi : Int) : Int := (t / 3600000) * 3600000 + mi * 60000 + t % 60000

/-- `setHours(h)` applied to `t` (keeps minutes, seconds, milliseconds). -/
def setHoursOnly (t h : Int) : Int := dayNumber t * 86400000 + h * 3600000 + t % 3600000

/-! ### Calendar lemmas -/

theorem leapIdx_cases (y : Int) : leapIdx y = 0 ∨ leapIdx y = 1 := by
  unfold leapIdx; split <;> simp

theorem dayFromYear_succ (y : Int) :
    dayFromYear (y + 1) = dayFromYear y + 365 + leapIdx y := by
  unfold leapIdx
  by_cases h : isLeap y = true
  · rw [if_pos h]
    simp only [isLeap, decide_eq_true_eq] at h
    unfold dayFromYear
    omega
  · rw [if_neg h]
    simp only [isLeap, decide_eq_true_eq] at h
    unfold dayFromYear
    omega

/-- Characterisation of `yearFromDay`: it is exactly ECMAScript's
`YearFromTime`, the largest year whose first day is at or before `z`. -/
theorem yearFromDay_char (z : Int) :
    dayFromYear (yearFromDay z) ≤ z ∧ z < dayFromYear (yearFromDay z + 1) := by
  unfold yearFromDay
  split
  · rename_i h
    simp only [dayFromYear] at h ⊢
    ring_nf at h ⊢
    omega
  · rename_i h
    split
    · rename_i h2
      simp only [dayFromYear] at h h2 ⊢
      ring_nf at h h2 ⊢
      omega
    · rename_i h2
      simp only [dayFromYear] at h h2 ⊢
      ring_nf at h h2 ⊢
      omega

theorem leapIdx_nonneg (y : Int) : 0 ≤ leapIdx y := by
  rcases leapIdx_cases y with h | h <;> omega

theorem leapIdx_le_one (y : Int) : leapIdx y ≤ 1 := by
  rcases leapIdx_cases y with h | h <;> omega

theorem monthOffset_step (L m : Int) (hL0 : 0 ≤ L) (hL1 : L ≤ 1)
    (hm : 0 ≤ m) (hm' : m ≤ 11) :
    28 ≤ monthOffset L (m + 1) - monthOffset L m ∧
      monthOffset L (m + 1) - monthOffset L m ≤ 31 := by
  interval_cases m <;> simp [monthOffset] <;> omega

theorem monthOffset_twelve (L : Int) : monthOffset L 12 = 365 + L := by
  norm_num [monthOffset]

theorem monthOffset_values (L : Int) :
    monthOffset L 0 = 0 ∧ monthOffset L 1 = 31 ∧ monthOffset L 2 = 59 + L ∧
      monthOffset L 3 = 90 + L ∧ monthOffset L 4 = 120 + L ∧
      monthOffset L 5 = 151 + L ∧ monthOffset L 6 = 181 + L ∧
      monthOffset L 7 = 212 + L ∧ monthOffset L 8 = 243 + L ∧
      monthOffset L 9 = 273 + L ∧ monthOffset L 10 = 304 + L ∧
      monthOffset L 11 = 334 + L ∧ monthOffset L 12 = 365 + L := by
  norm_num [monthOffset]

set_option maxHeartbeats 1000000 in
theorem monthFromDayWithinYear_char (L w : Int) (hL0 : 0 ≤ L) (hL1 : L ≤ 1)
    (h0 : 0 ≤ w) (h1 : w < 365 + L) :
    0 ≤ monthFromDayWithinYear L w ∧ monthFromDayWithinYear L w ≤ 11 ∧
      monthOffset L (monthFromDayWithinYear L w) ≤ w ∧
      w < monthOffset L (monthFromDayWithinYear L w + 1) := by
  by_cases c0 : w < 31
  · have e : monthFromDayWithinYear L w = 0 := by
      unfold monthFromDayWithinYear
      rw [if_pos c0]
    have q1 : monthOffset L 0 = 0 := by norm_num [monthOffset]
    have q2 : monthOffset L (0 + 1) = 31 := by norm_num [monthOffset]
    rw [e, q1, q2]
    refine ⟨by norm_num, by norm_num, by omega, by omega⟩
  ·
    by_cases c1 : w < 59 + L
    · have e : monthFromDayWithinYear L w = 1 := by
        unfold monthFromDayWithinYear
        rw [if_neg c0, if_pos c1]
      have q1 : monthOffset L 1 = 31 := by norm_num [monthOffset]
      have q2 : monthOffset L (1 + 1) = 59 + L := by norm_num [monthOffset]
      rw [e, q1, q2]
      refine ⟨by norm_num, by norm_num, by omega, by omega⟩
    ·
      by_cases c2 : w < 90 + L
      · have e : monthFromDayWithinYear L w = 2 := by
          unfold monthFromDayWithinYear
          rw [if_neg c0, if_neg c1, if_pos c2]
        have q1 : monthOffset L 2 = 59 + L := by norm_num [monthOffset]
        have q2 : monthOffset L (2 + 1) = 90 + L := by norm_num [monthOffset]
        rw [e, q1, q2]
        refine ⟨by norm_num, by norm_num, by omega, by omega⟩
      ·
        by_cases c3 : w < 120 + L
        · have e : monthFromDayWithinYear L w = 3 := by
            unfold monthFromDayWithinYear
            rw [if_neg c0, if_neg c1, if_neg c2, if_pos c3]
          have q1 : monthOffset L 3 = 90 + L := by norm_num [monthOffset]
          have q2 : monthOffset L (3 + 1) = 120 + L := by norm_num [monthOffset]
          rw [e, q1, q2]
          refine ⟨by norm_num, by norm_num, by omega, by omega⟩
        ·
          by_cases c4 : w < 151 + L
          · have e : monthFromDayWithinYear L w = 4 := by
              unfold monthFromDayWithinYear
              rw [if_neg c0, if_neg c1, if_neg c2, if_neg c3, if_pos c4]
            have q1 : monthOffset L 4 = 120 + L := by norm_num [monthOffset]
            have q2 : monthOffset L (4 + 1) = 151 + L := by norm_num [monthOffset]
            rw [e, q1, q2]
            refine ⟨by norm_num, by norm_num, by omega, by omega⟩
          ·
            by_cases c5 : w < 181 + L
            · have e : monthFromDayWithinYear L w = 5 := by
                unfold monthFromDayWithinYear
                rw [if_neg c0, if_neg c1, if_neg c2, if_neg c3, if_neg c4, if_pos c5]
              have q1 : monthOffset L 5 = 151 + L := by norm_num [monthOffset]
              have q2 : monthOffset L (5 + 1) = 181 + L := by norm_num [monthOffset]
              rw [e, q1, q2]
              refine ⟨by norm_num, by norm_num, by omega, by omega⟩
            ·
              by_cases c6 : w < 212 + L
              · have e : monthFromDayWithinYear L w = 6 := by
                  unfold monthFromDayWithinYear
                  rw [if_neg c0, if_neg c1, if_neg c2, if_neg c3, if_neg c4, if_neg c5, if_pos c6]
                have q1 : monthOffset L 6 = 181 + L := by norm_num [monthOffset]
                have q2 : monthOffset L (6 + 1) = 212 + L := by norm_num [monthOffset]
                rw [e, q1, q2]
                refine ⟨by norm_num, by norm_num, by omega, by omega⟩
              ·
                by_cases c7 : w < 243 + L
                · have e : monthFromDayWithinYear L w = 7 := by
                    unfold monthFromDayWithinYear
                    rw [if_neg c0, if_neg c1, if_neg c2, if_neg c3, if_neg c4, if_neg c5, if_neg c6, if_pos c7]
                  have q1 : monthOffset L 7 = 212 + L := by norm_num [monthOffset]
                  have q2 : monthOffset L (7 + 1) = 243 + L := by norm_num [monthOffset]
                  rw [e, q1, q2]
                  refine ⟨by norm_num, by norm_num, by omega, by omega⟩
                ·
                  by_cases c8 : w < 273 + L
                  · have e : monthFromDayWithinYear L w = 8 := by
                      unfold monthFromDayWithinYear
                      rw [if_neg c0, if_neg c1, if_neg c2, if_neg c3, if_neg c4, if_neg c5, if_neg c6, if_neg c7, if_pos c8]
                    have q1 : monthOffset L 8 = 243 + L := by norm_num [monthOffset]
                    have q2 : monthOffset L (8 + 1) = 273 + L := by norm_num [monthOffset]
                    rw [e, q1, q2]
                    refine ⟨by norm_num, by norm_num, by omega, by omega⟩
                  ·
                    by_cases c9 : w < 304 + L
                    · have e : monthFromDayWithinYear L w = 9 := by
                        unfold monthFromDayWithinYear
                        rw [if_neg c0, if_neg c1, if_neg c2, if_neg c3, if_neg c4, if_neg c5, if_neg c6, if_neg c7, if_neg c8, if_pos c9]
                      have q1 : monthOffset L 9 = 273 + L := by norm_num [monthOffset]
                      have q2 : monthOffset L (9 + 1) = 304 + L := by norm_num [monthOffset]
                      rw [e, q1, q2]
                      refine ⟨by norm_num, by norm_num, by omega, by omega⟩
                    ·
                      by_cases c10 : w < 334 + L
                      · have e : monthFromDayWithinYear L w = 10 := by
                          unfold monthFromDayWithinYear
                          rw [if_neg c0, if_neg c1, if_neg c2, if_neg c3, if_neg c4, if_neg c5, if_neg c6, if_neg c7, if_neg c8, if_neg c9, if_pos c10]
                        have q1 : monthOffset L 10 = 304 + L := by norm_num [monthOffset]
                        have q2 : monthOffset L (10 + 1) = 334 + L := by norm_num [monthOffset]
                        rw [e, q1, q2]
                        refine ⟨by norm_num, by norm_num, by omega, by omega⟩
                      · have e : monthFromDayWithinYear L w = 11 := by
                          unfold monthFromDayWithinYear
                          rw [if_neg c0, if_neg c1, if_neg c2, if_neg c3, if_neg c4, if_neg c5, if_neg c6, if_neg c7, if_neg c8, if_neg c9, if_neg c10]
                        have q1 : monthOffset L 11 = 334 + L := by norm_num [monthOffset]
                        have q2 : monthOffset L (11 + 1) = 365 + L := by norm_num [monthOffset]
                        rw [e, q1, q2]
                        refine ⟨by norm_num, by norm_num, by omega, by omega⟩

/-- Day number of the first day of linear month `k` (year `k / 12`,
month `k % 12`). -/
def monthStartDay (k : Int) : Int :=
  dayFromYear (k / 12) + monthOffset (leapIdx (k / 12)) (k % 12)

/-- Linear month index containing day number `z`. -/
def monthIdxOfDay (z : Int) : Int := 12 * yearFromDay z + monthOfDay z

theorem makeDayNum_eq (y m d : Int) :
    makeDayNum y m d = monthStartDay (12 * y + m) + (d - 1) := by
  unfold makeDayNum monthStartDay
  have h1 : y + m / 12 = (12 * y + m) / 12 := by omega
  have h2 : m % 12 = (12 * y + m) % 12 := by omega
  rw [h1, h2]

theorem monthStartDay_succ (k : Int) :
    28 ≤ monthStartDay (k + 1) - monthStartDay k ∧
      monthStartDay (k + 1) - monthStartDay k ≤ 31 := by
  unfold monthStartDay
  have hL0 := leapIdx_nonneg (k / 12)
  have hL1 := leapIdx_le_one (k / 12)
  by_cases h : k % 12 = 11
  · have h12 : (k + 1) / 12 = k / 12 + 1 := by omega
    have h12' : (k + 1) % 12 = 0 := by omega
    rw [h12, h12', h, dayFromYear_succ (k / 12)]
    norm_num [monthOffset]
    omega
  · have h12 : (k + 1) / 12 = k / 12 := by omega
    have h12' : (k + 1) % 12 = k % 12 + 1 := by omega
    rw [h12, h12']
    have hs := monthOffset_step (leapIdx (k / 12)) (k % 12) hL0 hL1
      (by omega) (by omega)
    omega

theorem monthStartDay_mono {j k : Int} (h : j ≤ k) :
    monthStartDay j ≤ monthStartDay k := by
  have key : ∀ n : Nat, monthStartDay j ≤ monthStartDay (j + n) := by
    intro n
    induction n with
    | zero => simp
    | succ m ih =>
        have h2 := monthStartDay_succ (j + m)
        have e : (j + ((m : Int) + 1)) = (j + m) + 1 := by ring
        push_cast
        rw [e]
        omega
  have e2 : k = j + ((k - j).toNat : Int) := by omega
  rw [e2]
  exact key _

theorem monthStartDay_strictMono {j k : Int} (h : j < k) :
    monthStartDay j < monthStartDay k := by
  have h1 := monthStartDay_succ j
  have h2 := monthStartDay_mono (by omega : j + 1 ≤ k)
  omega

/-- The day within the year is a valid offset: `0 ≤ w < 365 + L`. -/
theorem dayWithinYear_char (z : Int) :
    0 ≤ dayWithinYear z ∧
      dayWithinYear z < 365 + leapIdx (yearFromDay z) := by
  have h := yearFromDay_char z
  have h2 := dayFromYear_succ (yearFromDay z)
  unfold dayWithinYear
  omega

theorem monthOfDay_range (z : Int) : 0 ≤ monthOfDay z ∧ monthOfDay z ≤ 11 := by
  have hw := dayWithinYear_char z
  have h := monthFromDayWithinYear_char (leapIdx (yearFromDay z)) (dayWithinYear z)
    (leapIdx_nonneg _) (leapIdx_le_one _) hw.1 hw.2
  exact ⟨h.1, h.2.1⟩

/-- The linear month index is the floor of `z` with respect to
`monthStartDay`: `z` lies in its month. -/
theorem monthIdxOfDay_char (z : Int) :
    monthStartDay (monthIdxOfDay z) ≤ z ∧ z < monthStartDay (monthIdxOfDay z + 1) := by
  have hy := yearFromDay_char z
  have hy2 := dayFromYear_succ (yearFromDay z)
  have hw := dayWithinYear_char z
  have hm := monthFromDayWithinYear_char (leapIdx (yearFromDay z)) (dayWithinYear z)
    (leapIdx_nonneg _) (leapIdx_le_one _) hw.1 hw.2
  have hmd : monthFromDayWithinYear (leapIdx (yearFromDay z)) (dayWithinYear z)
      = monthOfDay z := rfl
  rw [hmd] at hm
  have hr := monthOfDay_range z
  unfold monthIdxOfDay monthStartDay
  have e1 : (12 * yearFromDay z + monthOfDay z) / 12 = yearFromDay z := by omega
  have e2 : (12 * yearFromDay z + monthOfDay z) % 12 = monthOfDay z := by omega
  rw [e1, e2]
  by_cases h11 : monthOfDay z = 11
  · have e3 : (12 * yearFromDay z + monthOfDay z + 1) / 12 = yearFromDay z + 1 := by omega
    have e4 : (12 * yearFromDay z + monthOfDay z + 1) % 12 = 0 := by omega
    rw [e3, e4, h11]
    rw [h11] at hm
    have hv1 := (monthOffset_values (leapIdx (yearFromDay z + 1))).1
    have hv2 := monthOffset_values (leapIdx (yearFromDay z))
    norm_num at hm
    unfold dayWithinYear at hm
    omega
  · have e3 : (12 * yearFromDay z + monthOfDay z + 1) / 12 = yearFromDay z := by omega
    have e4 : (12 * yearFromDay z + monthOfDay z + 1) % 12 = monthOfDay z + 1 := by omega
    rw [e3, e4]
    unfold dayWithinYear at hm
    omega

/-- Uniqueness direction of `monthIdxOfDay_char`. -/
theorem monthIdxOfDay_eq {k z : Int} (h1 : monthStartDay k ≤ z)
    (h2 : z < monthStartDay (k + 1)) : monthIdxOfDay z = k := by
  have hc := monthIdxOfDay_char z
  by_contra hne
  rcases lt_or_gt_of_ne hne with hlt | hgt
  · have := monthStartDay_mono (by omega : monthIdxOfDay z + 1 ≤ k)
    omega
  · have := monthStartDay_mono (by omega : k + 1 ≤ monthIdxOfDay z)
    omega

theorem dateOfDay_range (z : Int) : 1 ≤ dateOfDay z ∧ dateOfDay z ≤ 31 := by
  have hw := dayWithinYear_char z
  have hm := monthFromDayWithinYear_char (leapIdx (yearFromDay z)) (dayWithinYear z)
    (leapIdx_nonneg _) (leapIdx_le_one _) hw.1 hw.2
  have hs := monthOffset_step (leapIdx (yearFromDay z))
    (monthFromDayWithinYear (leapIdx (yearFromDay z)) (dayWithinYear z))
    (leapIdx_nonneg _) (leapIdx_le_one _) hm.1 hm.2.1
  unfold dateOfDay monthOfDay
  unfold dayWithinYear at *
  omega

/-- Round trip: rebuilding a day number from its civil components is the
identity.  This is what makes the ECMAScript setters total. -/
theorem makeDayNum_roundtrip (z : Int) :
    makeDayNum (yearFromDay z) (monthOfDay z) (dateOfDay z) = z := by
  rw [makeDayNum_eq]
  have hr := monthOfDay_range z
  unfold monthStartDay
  have e1 : (12 * yearFromDay z + monthOfDay z) / 12 = yearFromDay z := by omega
  have e2 : (12 * yearFromDay z + monthOfDay z) % 12 = monthOfDay z := by omega
  rw [e1, e2]
  unfold dateOfDay monthOfDay dayWithinYear
  omega

theorem makeDayNum_day_shift (y m d k : Int) :
    makeDayNum y m (d + k) = makeDayNum y m d + k := by
  unfold makeDayNum; omega

/-- `setDate(getDate() + k)` shifts an instant by exactly `k` civil days. -/
theorem setDate_shift (t k : Int) :
    setDate t (getDate t + k) = t + k * 86400000 := by
  unfold setDate getDate getFullYear getMonth
  rw [makeDayNum_day_shift, makeDayNum_roundtrip]
  unfold dayNumber timeWithinDay
  omega

/-! ## DateRange and canonical range sets (`dateRangeImpl.ts`)

A `DateRange` is a half-open interval `[start, end)`; an absent `end`
means the range extends forever.  The source field name `end` is a Lean
keyword, so it is called `stop` here. -/

structure DateRange where
  start : Int
  stop : Option Int
deriving DecidableEq, Repr

/-- `inDateRangeImpl`: `date >= range.start && (range.end === undefined
|| date < range.end)`. -/
def inDateRangeImpl (date : Int) (range : DateRange) : Bool :=
  decide (range.start ≤ date) &&
    match range.stop with
    | none => true
    | some e => decide (date < e)

/-- The merge condition of `_mergeSortedRanges`:
`currentMerge.end === undefined || nextRange.start <= currentMerge.end`. -/
def mergeTouches (cur next : DateRange) : Bool :=
  match cur.stop with
  | none => true
  | some e => decide (next.start ≤ e)

/-- The end-update of `_mergeSortedRanges` when merging `next` into the
current range: an absent end absorbs everything, otherwise the later end
wins. -/
def combineStop (cur next : Option Int) : Option Int :=
  match next with
  | none => none
  | some e2 =>
      match cur with
      | none => none
      | some e => if e < e2 then some e2 else some e

/-- The sweep loop of `_mergeSortedRanges`, with `cur` playing the role
of `currentMerge`. -/
def mergeLoop (cur : DateRange) : List DateRange → List DateRange
  | [] => [cur]
  | next :: rest =>
      if mergeTouches cur next then
        mergeLoop ⟨cur.start, combineStop cur.stop next.stop⟩ rest
      else
        cur :: mergeLoop next rest

/-- `_mergeSortedRanges` of `dateRangeImpl.ts`. -/
def mergeSortedRanges (sortedRanges : List DateRange) : List DateRange :=
  match sortedRanges with
  | [] => []
  | r :: rest => mergeLoop r rest

/-- One step of a stable insertion sort by start: insert `x` after every
element that starts at or before it. -/
def insertByStart : List DateRange → DateRange → List DateRange
  | [], x => [x]
  | y :: ys, x =>
      if y.start ≤ x.start then y :: insertByStart ys x else x :: y :: ys

/-- `ranges.sort((a, b) => a.start.getTime() - b.start.getTime())`:
a stable sort by start date (ECMAScript sorts are stable, and every
stable sort by the same key produces the same list, so an insertion sort
is an exact model). -/
def sortByStart (ranges : List DateRange) : List DateRange :=
  ranges.foldl insertByStart []

/-- `processRanges` of `dateRangeImpl.ts`: sort by start then sweep-merge. -/
def processRanges (ranges : List DateRange) : List DateRange :=
  if ranges.isEmpty then [] else mergeSortedRanges (sortByStart ranges)

/-- `unionImpl` of `dateRangeImpl.ts`. -/
def unionImpl (thisRanges otherRanges : List DateRange) : List DateRange :=
  if thisRanges.isEmpty then otherRanges
  else if otherRanges.isEmpty then thisRanges
  else mergeSortedRanges (sortByStart (thisRanges ++ otherRanges))

/-- The two-pointer loop of `intersectionImpl`.  The `Nat` argument is an
iteration budget; `intersectionImpl` passes the sum of the lengths, which
the loop can never exhaust since every step drops at least one range. -/
def interLoop : Nat → List DateRange → List DateRange → List DateRange
  | 0, _, _ => []
  | _ + 1, [], _ => []
  | _ + 1, _, [] => []
  | n + 1, a :: as', b :: bs' =>
      let s := max a.start b.start
      let e : Option Int :=
        match a.stop, b.stop with
        | none, none => none
        | none, some e2 => some e2
        | some e1, none => some e1
        | some e1, some e2 => some (min e1 e2)
      let rest :=
        match a.stop, b.stop with
        | none, none => interLoop n as' bs'
        | none, some _ => interLoop n (a :: as') bs'
        | some _, none => interLoop n as' (b :: bs')
        | some e1, some e2 =>
            if e1 < e2 then interLoop n as' (b :: bs')
            else if e2 < e1 then interLoop n (a :: as') bs'
            else interLoop n as' bs'
      match e with
      | none => ⟨s, none⟩ :: rest
      | some ee => if s < ee then ⟨s, some ee⟩ :: rest else rest

/-- `intersectionImpl` of `dateRangeImpl.ts`. -/
def intersectionImpl (rangesA rangesB : List DateRange) : List DateRange :=
  if rangesA.isEmpty || rangesB.isEmpty then []
  else interLoop (rangesA.length + rangesB.length) rangesA rangesB

/-! ### DateRangeSet accessors (`timeCond.ts`), on the underlying list -/

/-- `DateRangeSet.firstDate`. -/
def firstDate (ranges : List DateRange) : Option Int :=
  match ranges with
  | [] => none
  | r :: _ => some r.start

/-- `DateRangeSet.lastRange`. -/
def lastRange (ranges : List DateRange) : Option DateRange := ranges.getLast?

/-- `DateRangeSet.lastDate`: `undefined` when the set is empty or its
last range is open-ended. -/
def lastDate (ranges : List DateRange) : Option Int :=
  match ranges.getLast? with
  | none => none
  | some r => r.stop

/-! ### The canonical-set invariants -/

/-- A range is valid when its start precedes its end (§3 of the data
model: `start < end` whenever `end` is present). -/
def validRange (r : DateRange) : Bool :=
  match r.stop with
  | none => true
  | some e => decide (r.start < e)

/-- `a` closes strictly before `b` starts: `a` is bounded and leaves a
gap to `b` (so the two are disjoint, non-touching and sorted). -/
def sepBefore (a b : DateRange) : Bool :=
  match a.stop with
  | none => false
  | some e => decide (e < b.start)

/-- The canonical-set invariant of `SortedDateRanges`, as a single sweep:
every range valid and every adjacent pair separated by a gap. -/
def canonicalList : List DateRange → Bool
  | [] => true
  | [r] => validRange r
  | a :: b :: rest => validRange a && sepBefore a b && canonicalList (b :: rest)

/-- Invariant 1 of the spec: strictly sorted by start. -/
def StrictlySorted (l : List DateRange) : Prop :=
  l.Pairwise fun a b => a.start < b.start

/-- Invariant 2 of the spec: pairwise disjoint (an earlier range ends at
or before a later one starts). -/
def DisjointRanges (l : List DateRange) : Prop :=
  l.Pairwise fun a b => ∀ e, a.stop = some e → e ≤ b.start

/-- Invariant 3 of the spec: non-touching (no range ends exactly where
the next one starts). -/
def NonTouching (l : List DateRange) : Prop :=
  l.Chain' fun a b => a.stop ≠ some b.start

/-- At most one open-ended range, and only in the last position. -/
def OpenEndedLast (l : List DateRange) : Prop :=
  ∀ i, (h : i < l.length) → (l.get ⟨i, h⟩).stop = none → i = l.length - 1

/-! ### Structure of canonical lists -/

theorem validRange_iff (r : DateRange) :
    validRange r = true ↔ ∀ e, r.stop = some e → r.start < e := by
  unfold validRange
  cases h : r.stop <;> simp

theorem sepBefore_iff (a b : DateRange) :
    sepBefore a b = true ↔ ∃ e, a.stop = some e ∧ e < b.start := by
  unfold sepBefore
  cases h : a.stop <;> simp

theorem mergeTouches_iff (cur next : DateRange) :
    mergeTouches cur next = true ↔
      cur.stop = none ∨ ∃ e, cur.stop = some e ∧ next.start ≤ e := by
  unfold mergeTouches
  cases h : cur.stop <;> simp

theorem canonicalList_of_cons {a : DateRange} {l : List DateRange}
    (h : canonicalList (a :: l) = true) :
    validRange a = true ∧ canonicalList l = true := by
  cases l with
  | nil => simpa [canonicalList] using h
  | cons b bs =>
      simp only [canonicalList, Bool.and_eq_true] at h
      exact ⟨h.1.1, h.2⟩

theorem canonicalList_gap {a x : DateRange} {xs : List DateRange}
    (h : canonicalList (a :: x :: xs) = true) :
    ∃ e, a.stop = some e ∧ e < x.start := by
  simp only [canonicalList, Bool.and_eq_true] at h
  exact (sepBefore_iff a x).1 h.1.2

theorem canonicalList_open_tail {a : DateRange} {l : List DateRange}
    (h : canonicalList (a :: l) = true) (ho : a.stop = none) : l = [] := by
  cases l with
  | nil => rfl
  | cons x xs =>
      obtain ⟨e, he, _⟩ := canonicalList_gap h
      rw [ho] at he
      cases he

theorem canonicalList_cons_of {x : DateRange} {l : List DateRange}
    (hx : validRange x = true) (hl : canonicalList l = true)
    (hsep : ∀ r ∈ l, ∀ e, x.stop = some e → e < r.start)
    (hcl : ∀ r ∈ l, x.stop ≠ none) :
    canonicalList (x :: l) = true := by
  cases l with
  | nil => simpa [canonicalList] using hx
  | cons b bs =>
      simp only [canonicalList, Bool.and_eq_true]
      refine ⟨⟨hx, ?_⟩, hl⟩
      rw [sepBefore_iff]
      cases hstop : x.stop with
      | none => exact absurd hstop (hcl b (by simp))
      | some e => exact ⟨e, rfl, hsep b (by simp) e hstop⟩

/-- Every later range starts strictly after the head range closes. -/
theorem canonicalList_head_sep :
    ∀ (l : List DateRange) (a : DateRange), canonicalList (a :: l) = true →
      ∀ r ∈ l, ∃ e, a.stop = some e ∧ e < r.start := by
  intro l
  induction l with
  | nil => intro a _ r hr; cases hr
  | cons b bs ih =>
      intro a h r hr
      obtain ⟨e, he, hlt⟩ := canonicalList_gap h
      have hbl := (canonicalList_of_cons h).2
      rcases List.mem_cons.1 hr with rfl | hr'
      · exact ⟨e, he, hlt⟩
      · obtain ⟨e', he', hlt'⟩ := ih b hbl r hr'
        have hvb := (canonicalList_of_cons hbl).1
        have := (validRange_iff b).1 hvb e' he'
        exact ⟨e, he, by omega⟩

theorem canonicalList_valid {l : List DateRange} (h : canonicalList l = true) :
    ∀ r ∈ l, validRange r = true := by
  induction l with
  | nil => intro r hr; cases hr
  | cons a as ih =>
      intro r hr
      rcases List.mem_cons.1 hr with rfl | hr'
      · exact (canonicalList_of_cons h).1
      · exact ih (canonicalList_of_cons h).2 r hr'

/-- A canonical list satisfies all four spec invariants. -/
theorem canonicalList_invariants {l : List DateRange}
    (h : canonicalList l = true) :
    StrictlySorted l ∧ DisjointRanges l ∧ NonTouching l ∧ OpenEndedLast l := by
  refine ⟨?_, ?_, ?_, ?_⟩
  · unfold StrictlySorted
    induction l with
    | nil => exact List.Pairwise.nil
    | cons a as ih =>
        refine List.Pairwise.cons ?_ (ih (canonicalList_of_cons h).2)
        intro r hr
        obtain ⟨e, he, hlt⟩ := canonicalList_head_sep as a h r hr
        have := (validRange_iff a).1 (canonicalList_of_cons h).1 e he
        omega
  · unfold DisjointRanges
    induction l with
    | nil => exact List.Pairwise.nil
    | cons a as ih =>
        refine List.Pairwise.cons ?_ (ih (canonicalList_of_cons h).2)
        intro r hr e he
        obtain ⟨e', he', hlt⟩ := canonicalList_head_sep as a h r hr
        rw [he] at he'
        cases he'
        omega
  · unfold NonTouching
    induction l with
    | nil => exact List.chain'_nil
    | cons a as ih =>
        rw [List.chain'_cons']
        refine ⟨?_, ih (canonicalList_of_cons h).2⟩
        intro b hb habs
        have hbm : b ∈ as := by
          cases as with
          | nil => simp at hb
          | cons x xs => simp at hb; subst hb; simp
        obtain ⟨e, he, hlt⟩ := canonicalList_head_sep as a h b hbm
        rw [habs] at he
        cases he
        omega
  · unfold OpenEndedLast
    induction l with
    | nil => intro i hi; cases hi
    | cons a as ih =>
        intro i hi ho
        cases i with
        | zero =>
            have : as = [] := canonicalList_open_tail h ho
            subst this
            rfl
        | succ j =>
            have hj := ih (canonicalList_of_cons h).2 j (by
              simpa using Nat.lt_of_succ_lt_succ hi) (by simpa using ho)
            have hne : as ≠ [] := by
              intro habs
              subst habs
              simp at hi
            have : 0 < as.length := List.length_pos.2 hne
            simp only [List.length_cons]
            omega

/-! ### `_mergeSortedRanges` establishes the invariant -/

theorem mergeLoop_ne_nil :
    ∀ (rest : List DateRange) (cur : DateRange),
      ∃ hd tl, mergeLoop cur rest = hd :: tl ∧ hd.start = cur.start := by
  intro rest
  induction rest with
  | nil => exact fun cur => ⟨cur, [], rfl, rfl⟩
  | cons next rest ih =>
      intro cur
      unfold mergeLoop
      by_cases h : mergeTouches cur next = true
      · rw [if_pos h]
        exact ih _
      · rw [if_neg h]
        exact ⟨cur, mergeLoop next rest, rfl, rfl⟩

theorem validRange_merge :
    ∀ (s1 s2 : Int) (o1 o2 : Option Int),
      validRange ⟨s1, o1⟩ = true → validRange ⟨s2, o2⟩ = true → s1 ≤ s2 →
      validRange ⟨s1, combineStop o1 o2⟩ = true := by
  intro s1 s2 o1 o2 hv hvn hle
  cases o2 with
  | none => simp [combineStop, validRange]
  | some e2 =>
      cases o1 with
      | none => simp [combineStop, validRange]
      | some e1 =>
          rw [validRange_iff] at hv hvn ⊢
          dsimp only at hv hvn ⊢
          have h1 := hv e1 rfl
          have h2 := hvn e2 rfl
          intro e he
          simp only [combineStop] at he
          by_cases hc : e1 < e2
          · rw [if_pos hc] at he
            injection he with he
            omega
          · rw [if_neg hc] at he
            injection he with he
            omega

theorem mergeLoop_canonical :
    ∀ (rest : List DateRange) (cur : DateRange),
      validRange cur = true → (∀ r ∈ rest, validRange r = true) →
      (rest.Pairwise fun a b => a.start ≤ b.start) →
      (∀ r ∈ rest, cur.start ≤ r.start) →
      canonicalList (mergeLoop cur rest) = true := by
  intro rest
  induction rest with
  | nil =>
      intro cur hv _ _ _
      simpa [mergeLoop, canonicalList] using hv
  | cons next rest ih =>
      intro cur hv hvl hp hle
      unfold mergeLoop
      by_cases h : mergeTouches cur next = true
      · rw [if_pos h]
        have hvnext : validRange next = true := hvl next (by simp)
        refine ih _ ?_ (fun r hr => hvl r (by simp [hr])) (List.Pairwise.of_cons hp) ?_
        · exact validRange_merge cur.start next.start cur.stop next.stop hv hvnext
            (hle next (by simp))
        · intro r hr
          exact hle r (by simp [hr])
      · rw [if_neg h]
        have hgap : ∃ e, cur.stop = some e ∧ e < next.start := by
          rcases hcs2 : cur.stop with _ | e1
          · exact absurd ((mergeTouches_iff cur next).2 (Or.inl hcs2)) h
          · refine ⟨e1, rfl, ?_⟩
            by_contra hh
            exact h ((mergeTouches_iff cur next).2 (Or.inr ⟨e1, hcs2, by omega⟩))
        obtain ⟨e, he, hlt⟩ := hgap
        have hrec := ih next (hvl next (by simp)) (fun r hr => hvl r (by simp [hr]))
          (List.Pairwise.of_cons hp)
          (fun r hr => List.rel_of_pairwise_cons hp hr)
        obtain ⟨hd, tl, heq, hhd⟩ := mergeLoop_ne_nil rest next
        rw [heq]
        rw [heq] at hrec
        simp only [canonicalList, Bool.and_eq_true]
        refine ⟨⟨hv, ?_⟩, hrec⟩
        rw [sepBefore_iff]
        exact ⟨e, he, by omega⟩

theorem insertByStart_perm (l : List DateRange) (x : DateRange) :
    (insertByStart l x).Perm (x :: l) := by
  induction l with
  | nil => exact List.Perm.refl _
  | cons y ys ih =>
      unfold insertByStart
      by_cases h : y.start ≤ x.start
      · rw [if_pos h]
        exact ((ih.cons y).trans (List.Perm.swap x y ys))
      · rw [if_neg h]

theorem insertByStart_mem (l : List DateRange) (x r : DateRange) :
    r ∈ insertByStart l x ↔ r = x ∨ r ∈ l := by
  rw [(insertByStart_perm l x).mem_iff]
  simp

theorem insertByStart_sorted (l : List DateRange) (x : DateRange)
    (h : l.Pairwise fun a b => a.start ≤ b.start) :
    (insertByStart l x).Pairwise fun a b => a.start ≤ b.start := by
  induction l with
  | nil => simp [insertByStart]
  | cons y ys ih =>
      unfold insertByStart
      by_cases hc : y.start ≤ x.start
      · rw [if_pos hc]
        refine List.Pairwise.cons ?_ (ih (List.Pairwise.of_cons h))
        intro r hr
        rcases (insertByStart_mem ys x r).1 hr with rfl | hr'
        · exact hc
        · exact List.rel_of_pairwise_cons h hr'
      · rw [if_neg hc]
        refine List.Pairwise.cons ?_ h
        intro r hr
        rcases List.mem_cons.1 hr with rfl | hr'
        · omega
        · have := List.rel_of_pairwise_cons h hr'
          omega

theorem sortByStart_perm (l : List DateRange) : (sortByStart l).Perm l := by
  have key : ∀ (xs acc : List DateRange),
      (xs.foldl insertByStart acc).Perm (acc ++ xs) := by
    intro xs
    induction xs with
    | nil => intro acc; simp
    | cons x xs ih =>
        intro acc
        have h1 := ih (insertByStart acc x)
        have h2 : (insertByStart acc x ++ xs).Perm (acc ++ x :: xs) :=
          ((insertByStart_perm acc x).append_right xs).trans List.perm_middle.symm
        exact h1.trans h2
  simpa using key l []

theorem sortByStart_sorted (l : List DateRange) :
    (sortByStart l).Pairwise fun a b => a.start ≤ b.start := by
  have key : ∀ (xs acc : List DateRange),
      (acc.Pairwise fun a b => a.start ≤ b.start) →
      ((xs.foldl insertByStart acc).Pairwise fun a b => a.start ≤ b.start) := by
    intro xs
    induction xs with
    | nil => intro acc h; simpa using h
    | cons x xs ih =>
        intro acc h
        exact ih _ (insertByStart_sorted acc x h)
  exact key l [] List.Pairwise.nil

theorem mergeSortedRanges_canonical {l : List DateRange}
    (hv : ∀ r ∈ l, validRange r = true)
    (hs : l.Pairwise fun a b => a.start ≤ b.start) :
    canonicalList (mergeSortedRanges l) = true := by
  cases l with
  | nil => rfl
  | cons r rest =>
      exact mergeLoop_canonical rest r (hv r (by simp))
        (fun x hx => hv x (by simp [hx]))
        (List.Pairwise.of_cons hs)
        (fun x hx => List.rel_of_pairwise_cons hs hx)

/-- `processRanges` canonicalises any list of valid ranges. -/
theorem processRanges_canonical {l : List DateRange}
    (hv : ∀ r ∈ l, validRange r = true) :
    canonicalList (processRanges l) = true := by
  unfold processRanges
  split
  · rfl
  · exact mergeSortedRanges_canonical
      (fun r hr => hv r ((sortByStart_perm l).mem_iff.1 hr))
      (sortByStart_sorted l)

/-- `unionImpl` of two canonical sets is canonical. -/
theorem unionImpl_canonical {a b : List DateRange}
    (ha : canonicalList a = true) (hb : canonicalList b = true) :
    canonicalList (unionImpl a b) = true := by
  unfold unionImpl
  split
  · exact hb
  · split
    · exact ha
    · refine mergeSortedRanges_canonical
        (fun r hr => ?_) (sortByStart_sorted _)
      have hr' := (sortByStart_perm (a ++ b)).mem_iff.1 hr
      rcases List.mem_append.1 hr' with h | h
      · exact canonicalList_valid ha r h
      · exact canonicalList_valid hb r h

theorem interLoop_nil_left (n : Nat) (B : List DateRange) :
    interLoop n [] B = [] := by
  cases n with
  | zero => rfl
  | succ m => cases B <;> rfl

theorem interLoop_nil_right (n : Nat) (A : List DateRange) :
    interLoop n A [] = [] := by
  cases n with
  | zero => rfl
  | succ m => cases A <;> rfl

theorem validRange_mk_some (s e : Int) (h : s < e) :
    validRange ⟨s, some e⟩ = true := by
  simp [validRange, h]

/-- Invariant of the two-pointer sweep: from canonical inputs it produces
a canonical output whose every range starts at or after both heads. -/
theorem interLoop_spec :
    ∀ (n : Nat) (A B : List DateRange),
      canonicalList A = true → canonicalList B = true →
      canonicalList (interLoop n A B) = true ∧
      (∀ a as b bs, A = a :: as → B = b :: bs →
        ∀ r ∈ interLoop n A B, max a.start b.start ≤ r.start) := by
  intro n
  induction n with
  | zero =>
      intro A B _ _
      exact ⟨rfl, by intro a as b bs _ _ r hr; cases hr⟩
  | succ n ih =>
      intro A B hA hB
      match A, B with
      | [], B =>
          refine ⟨by rw [interLoop_nil_left]; rfl, ?_⟩
          intro a as b bs hAeq _ r hr
          cases hAeq
      | x :: xs, [] =>
          refine ⟨by rw [interLoop_nil_right]; rfl, ?_⟩
          intro a as b bs _ hBeq r hr
          cases hBeq
      | a :: as', b :: bs' =>
          have hva := (validRange_iff a).1 (canonicalList_of_cons hA).1
          have hvb := (validRange_iff b).1 (canonicalList_of_cons hB).1
          have hA' := (canonicalList_of_cons hA).2
          have hB' := (canonicalList_of_cons hB).2
          rcases hoa : a.stop with _ | e1 <;> rcases hob : b.stop with _ | e2
          · -- both open-ended: both tails must be empty
            have has : as' = [] := canonicalList_open_tail hA hoa
            have hbs : bs' = [] := canonicalList_open_tail hB hob
            subst has hbs
            have hres : interLoop (n + 1) [a] [b] =
                [⟨max a.start b.start, none⟩] := by
              simp only [interLoop, hoa, hob]
              rw [interLoop_nil_left]
            rw [hres]
            refine ⟨by simp [canonicalList, validRange], ?_⟩
            intro a0 as0 b0 bs0 hAeq hBeq r hr
            cases hAeq; cases hBeq
            simp at hr
            simp [hr]
          · -- a open-ended, b bounded: advance B
            have has : as' = [] := canonicalList_open_tail hA hoa
            subst has
            have hrec := ih [a] bs' hA hB'
            have hres : interLoop (n + 1) [a] (b :: bs') =
                (if max a.start b.start < e2 then
                  [⟨max a.start b.start, some e2⟩] else []) ++ interLoop n [a] bs' := by
              simp only [interLoop, hoa, hob]
              split <;> simp
            have hbnd : ∀ r ∈ interLoop n [a] bs', e2 < r.start ∧ a.start ≤ r.start := by
              intro r hr
              cases hbs : bs' with
              | nil =>
                  rw [hbs, interLoop_nil_right] at hr
                  cases hr
              | cons x xs =>
                  have hb1 := hrec.2 a [] x xs rfl hbs r hr
                  have hgt : e2 < x.start := by
                    obtain ⟨e', he', h2⟩ := canonicalList_gap (hbs ▸ hB)
                    rw [hob] at he'
                    injection he' with he'
                    omega
                  have h1 := le_max_left a.start x.start
                  have h2 := le_max_right a.start x.start
                  exact ⟨by omega, by omega⟩
            rw [hres]
            by_cases hkeep : max a.start b.start < e2
            · rw [if_pos hkeep]
              simp only [List.cons_append, List.nil_append]
              constructor
              · refine canonicalList_cons_of (validRange_mk_some _ _ hkeep) hrec.1 ?_ ?_
                · intro r hr e he
                  injection he with he
                  subst he
                  exact (hbnd r hr).1
                · intro r _ habs
                  cases habs
              · intro a0 as0 b0 bs0 hAeq hBeq r hr
                cases hAeq; cases hBeq
                rcases List.mem_cons.1 hr with rfl | hr'
                · simp
                · have h3 := hbnd r hr'
                  have h4 := hvb e2 hob
                  simp only [max_le_iff]
                  omega
            · rw [if_neg hkeep]
              simp only [List.nil_append]
              refine ⟨hrec.1, ?_⟩
              intro a0 as0 b0 bs0 hAeq hBeq r hr
              cases hAeq; cases hBeq
              have h3 := hbnd r hr
              have h4 := hvb e2 hob
              simp only [max_le_iff]
              omega
          · -- a bounded, b open-ended: advance A
            have hbs : bs' = [] := canonicalList_open_tail hB hob
            subst hbs
            have hrec := ih as' [b] hA' hB
            have hres : interLoop (n + 1) (a :: as') [b] =
                (if max a.start b.start < e1 then
                  [⟨max a.start b.start, some e1⟩] else []) ++ interLoop n as' [b] := by
              simp only [interLoop, hoa, hob]
              split <;> simp
            have hbnd : ∀ r ∈ interLoop n as' [b], e1 < r.start ∧ b.start ≤ r.start := by
              intro r hr
              cases has : as' with
              | nil =>
                  rw [has, interLoop_nil_left] at hr
                  cases hr
              | cons x xs =>
                  have hb1 := hrec.2 x xs b [] has rfl r hr
                  have hgt : e1 < x.start := by
                    obtain ⟨e', he', h2⟩ := canonicalList_gap (has ▸ hA)
                    rw [hoa] at he'
                    injection he' with he'
                    omega
                  have h1 := le_max_left x.start b.start
                  have h2 := le_max_right x.start b.start
                  exact ⟨by omega, by omega⟩
            rw [hres]
            by_cases hkeep : max a.start b.start < e1
            · rw [if_pos hkeep]
              simp only [List.cons_append, List.nil_append]
              constructor
              · refine canonicalList_cons_of (validRange_mk_some _ _ hkeep) hrec.1 ?_ ?_
                · intro r hr e he
                  injection he with he
                  subst he
                  exact (hbnd r hr).1
                · intro r _ habs
                  cases habs
              · intro a0 as0 b0 bs0 hAeq hBeq r hr
                cases hAeq; cases hBeq
                rcases List.mem_cons.1 hr with rfl | hr'
                · simp
                · have h3 := hbnd r hr'
                  have h4 := hva e1 hoa
                  simp only [max_le_iff]
                  omega
            · rw [if_neg hkeep]
              simp only [List.nil_append]
              refine ⟨hrec.1, ?_⟩
              intro a0 as0 b0 bs0 hAeq hBeq r hr
              cases hAeq; cases hBeq
              have h3 := hbnd r hr
              have h4 := hva e1 hoa
              simp only [max_le_iff]
              omega
          · -- both bounded
            have hva1 := hva e1 hoa
            have hvb2 := hvb e2 hob
            rcases lt_trichotomy e1 e2 with hlt | heq | hgt
            · -- advance A
              have hrec := ih as' (b :: bs') hA' hB
              have hres : interLoop (n + 1) (a :: as') (b :: bs') =
                  (if max a.start b.start < min e1 e2 then
                    [⟨max a.start b.start, some (min e1 e2)⟩] else []) ++
                    interLoop n as' (b :: bs') := by
                simp only [interLoop, hoa, hob]
                rw [if_pos hlt]
                split <;> simp
              have hmin : min e1 e2 = e1 := min_eq_left (le_of_lt hlt)
              have hbnd : ∀ r ∈ interLoop n as' (b :: bs'),
                  e1 < r.start ∧ b.start ≤ r.start := by
                intro r hr
                cases has : as' with
                | nil =>
                    rw [has, interLoop_nil_left] at hr
                    cases hr
                | cons x xs =>
                    have hb1 := hrec.2 x xs b bs' has rfl r hr
                    have hgt2 : e1 < x.start := by
                      obtain ⟨e', he', h2⟩ := canonicalList_gap (has ▸ hA)
                      rw [hoa] at he'
                      injection he' with he'
                      omega
                    have h1 := le_max_left x.start b.start
                    have h2 := le_max_right x.start b.start
                    exact ⟨by omega, by omega⟩
              rw [hres]
              by_cases hkeep : max a.start b.start < min e1 e2
              · rw [if_pos hkeep]
                simp only [List.cons_append, List.nil_append]
                constructor
                · refine canonicalList_cons_of (validRange_mk_some _ _ hkeep) hrec.1 ?_ ?_
                  · intro r hr e he
                    injection he with he
                    subst he
                    rw [hmin]
                    exact (hbnd r hr).1
                  · intro r _ habs
                    cases habs
                · intro a0 as0 b0 bs0 hAeq hBeq r hr
                  cases hAeq; cases hBeq
                  rcases List.mem_cons.1 hr with rfl | hr'
                  · simp
                  · have h3 := hbnd r hr'
                    simp only [max_le_iff]
                    omega
              · rw [if_neg hkeep]
                simp only [List.nil_append]
                refine ⟨hrec.1, ?_⟩
                intro a0 as0 b0 bs0 hAeq hBeq r hr
                cases hAeq; cases hBeq
                have h3 := hbnd r hr
                simp only [max_le_iff]
                omega
            · -- equal ends: advance both
              subst heq
              have hrec := ih as' bs' hA' hB'
              have hres : interLoop (n + 1) (a :: as') (b :: bs') =
                  (if max a.start b.start < min e1 e1 then
                    [⟨max a.start b.start, some (min e1 e1)⟩] else []) ++
                    interLoop n as' bs' := by
                simp only [interLoop, hoa, hob]
                rw [if_neg (lt_irrefl e1), if_neg (lt_irrefl e1)]
                split <;> simp
              have hbnd : ∀ r ∈ interLoop n as' bs', e1 < r.start := by
                intro r hr
                cases has : as' with
                | nil =>
                    rw [has, interLoop_nil_left] at hr
                    cases hr
                | cons x xs =>
                    cases hbs : bs' with
                    | nil =>
                        rw [hbs, interLoop_nil_right] at hr
                        cases hr
                    | cons y ys =>
                        have hb1 := hrec.2 x xs y ys has hbs r hr
                        have hgt2 : e1 < x.start := by
                          obtain ⟨e', he', h2⟩ := canonicalList_gap (has ▸ hA)
                          rw [hoa] at he'
                          injection he' with he'
                          omega
                        have h1 := le_max_left x.start y.start
                        omega
              rw [hres]
              by_cases hkeep : max a.start b.start < min e1 e1
              · rw [if_pos hkeep]
                simp only [List.cons_append, List.nil_append]
                constructor
                · refine canonicalList_cons_of (validRange_mk_some _ _ hkeep) hrec.1 ?_ ?_
                  · intro r hr e he
                    injection he with he
                    subst he
                    rw [min_self]
                    exact hbnd r hr
                  · intro r _ habs
                    cases habs
                · intro a0 as0 b0 bs0 hAeq hBeq r hr
                  cases hAeq; cases hBeq
                  rcases List.mem_cons.1 hr with rfl | hr'
                  · simp
                  · have h3 := hbnd r hr'
                    simp only [max_le_iff]
                    omega
              · rw [if_neg hkeep]
                simp only [List.nil_append]
                refine ⟨hrec.1, ?_⟩
                intro a0 as0 b0 bs0 hAeq hBeq r hr
                cases hAeq; cases hBeq
                have h3 := hbnd r hr
                simp only [max_le_iff]
                omega
            · -- advance B
              have hrec := ih (a :: as') bs' hA hB'
              have hres : interLoop (n + 1) (a :: as') (b :: bs') =
                  (if max a.start b.start < min e1 e2 then
                    [⟨max a.start b.start, some (min e1 e2)⟩] else []) ++
                    interLoop n (a :: as') bs' := by
                simp only [interLoop, hoa, hob]
                rw [if_neg (by omega : ¬ e1 < e2), if_pos hgt]
                split <;> simp
              have hmin : min e1 e2 = e2 := min_eq_right (le_of_lt hgt)
              have hbnd : ∀ r ∈ interLoop n (a :: as') bs',
                  e2 < r.start ∧ a.start ≤ r.start := by
                intro r hr
                cases hbs : bs' with
                | nil =>
                    rw [hbs, interLoop_nil_right] at hr
                    cases hr
                | cons x xs =>
                    have hb1 := hrec.2 a as' x xs rfl hbs r hr
                    have hgt2 : e2 < x.start := by
                      obtain ⟨e', he', h2⟩ := canonicalList_gap (hbs ▸ hB)
                      rw [hob] at he'
                      injection he' with he'
                      omega
                    have h1 := le_max_left a.start x.start
                    have h2 := le_max_right a.start x.start
                    exact ⟨by omega, by omega⟩
              rw [hres]
              by_cases hkeep : max a.start b.start < min e1 e2
              · rw [if_pos hkeep]
                simp only [List.cons_append, List.nil_append]
                constructor
                · refine canonicalList_cons_of (validRange_mk_some _ _ hkeep) hrec.1 ?_ ?_
                  · intro r hr e he
                    injection he with he
                    subst he
                    rw [hmin]
                    exact (hbnd r hr).1
                  · intro r _ habs
                    cases habs
                · intro a0 as0 b0 bs0 hAeq hBeq r hr
                  cases hAeq; cases hBeq
                  rcases List.mem_cons.1 hr with rfl | hr'
                  · simp
                  · have h3 := hbnd r hr'
                    simp only [max_le_iff]
                    omega
              · rw [if_neg hkeep]
                simp only [List.nil_append]
                refine ⟨hrec.1, ?_⟩
                intro a0 as0 b0 bs0 hAeq hBeq r hr
                cases hAeq; cases hBeq
                have h3 := hbnd r hr
                simp only [max_le_iff]
                omega

/-- `intersectionImpl` of two canonical sets is canonical. -/
theorem intersectionImpl_canonical {a b : List DateRange}
    (ha : canonicalList a = true) (hb : canonicalList b = true) :
    canonicalList (intersectionImpl a b) = true := by
  unfold intersectionImpl
  split
  · rfl
  · exact (interLoop_spec (a.length + b.length) a b ha hb).1

/-- Heads of `mergeLoop` results and membership: every produced range
starts at the start of an input range. -/
theorem mergeLoop_starts :
    ∀ (rest : List DateRange) (cur : DateRange) (r : DateRange),
      r ∈ mergeLoop cur rest → r.start = cur.start ∨ ∃ x ∈ rest, r.start = x.start := by
  intro rest
  induction rest with
  | nil =>
      intro cur r hr
      simp [mergeLoop] at hr
      simp [hr]
  | cons next rest ih =>
      intro cur r hr
      unfold mergeLoop at hr
      by_cases h : mergeTouches cur next = true
      · rw [if_pos h] at hr
        rcases ih _ r hr with h1 | ⟨x, hx, hx2⟩
        · exact Or.inl h1
        · exact Or.inr ⟨x, by simp [hx], hx2⟩
      · rw [if_neg h] at hr
        rcases List.mem_cons.1 hr with rfl | hr'
        · exact Or.inl rfl
        · rcases ih next r hr' with h1 | ⟨x, hx, hx2⟩
          · exact Or.inr ⟨next, by simp, h1⟩
          · exact Or.inr ⟨x, by simp [hx], hx2⟩

/-! ## The condition algebra (`timeCond.ts`)

Each condition class becomes a constructor; the three queries become a
fuel-indexed interpreter.  The fuel bounds the depth of evaluation and
the number of iterations of the source's `while` loops; `none` means the
fuel was exhausted (the loops of `AndCond` and `NthCond` have no static
bound).  All helper computations are written against the calendar model
above, with the source's in-place `Date` mutations rendered as local
value updates (`timeCond.ts` mutates `Date` copies through setters). -/

structure DayTime where
  hour : Int
  minute : Int
deriving DecidableEq, Repr

/-- A daily time range; the source field `end` is called `stop`. -/
structure DayTimeRange where
  start : DayTime
  stop : DayTime
deriving DecidableEq, Repr

structure MonthDay where
  month : Int
  day : Int
deriving DecidableEq, Repr

inductive Cond where
  | timeDelta (startTime delta : Int)
  | timeBetween (range : DayTimeRange)
  | monthBetween (startM endM : Int)
  | dateBetween (startMonthDay endMonthDay : MonthDay)
  | dayBetween (startD endD : Int)
  | timeSpan (months days hours minutes seconds : Int)
  | weekDay (weekDayNumber : Int)
  | or (conditions : List Cond)
  | and (conditions : List Cond)
  | nth (startDate : Int) (n : Int) (cond : Cond)
  | firstAfterStart (refCond relativeCond : Cond) (inclusive : Bool)

/-- The `TimeBetweenCond` constructor's end adjustment: an exclusive end
is turned into the inclusive-minute internal form by subtracting one
minute, wrapping hour and day boundaries. -/
def mkTimeBetweenRange (range : DayTimeRange) (inclusive : Bool) : DayTimeRange :=
  if inclusive then range
  else
    let m0 := range.stop.minute - 1
    let m1 := if m0 < 0 then (59 : Int) else m0
    let h0 := if m0 < 0 then range.stop.hour - 1 else range.stop.hour
    let h1 := if h0 < 0 then (23 : Int) else h0
    ⟨range.start, ⟨h1, m1⟩⟩

/-- `new TimeBetweenCond(range, inclusive)`. -/
def mkTimeBetweenCond (range : DayTimeRange) (inclusive : Bool) : Cond :=
  .timeBetween (mkTimeBetweenRange range inclusive)

/-- JavaScript's `%` operator (remainder truncated towards zero), for a
positive divisor. -/
def jsRem (a b : Int) : Int := if 0 ≤ a then a % b else -(-a % b)

/-! ### Leaf condition queries -/

/-- `TimeBetweenCond.getConcreteRange`. -/
def tbConcrete (t : Int) (dt : DayTime) : Int := setHMSms t dt.hour dt.minute 0 0

/-- `TimeBetweenCond.endRange`. -/
def tbEndRange (range : DayTimeRange) (relativeTo startTime endTime : Int) : Int :=
  let d :=
    if startTime ≤ endTime then tbConcrete relativeTo range.stop
    else
      let d0 := tbConcrete relativeTo range.stop
      setDate d0 (getDate d0 + 1)
  setMinutes d (getMinutes d + 1)

/-- `TimeBetweenCond.lastActiveRange`. -/
def tbLastActiveRange (range : DayTimeRange) (date : Int) : Option DateRange :=
  let startTime := tbConcrete date range.start
  let endTime := tbConcrete date range.stop
  let actualStart :=
    if startTime ≤ date then startTime
    else setDate startTime (getDate startTime - 1)
  some ⟨actualStart, some (tbEndRange range actualStart startTime endTime)⟩

/-- `TimeBetweenCond.nextRanges`. -/
def tbNextRanges (range : DayTimeRange) (searchAfter : Int) : List DateRange :=
  let startTime := tbConcrete searchAfter range.start
  let endTime := tbConcrete searchAfter range.stop
  let actualStart :=
    if startTime ≤ searchAfter then setDate startTime (getDate startTime + 1)
    else startTime
  processRanges [⟨actualStart, some (tbEndRange range actualStart startTime endTime)⟩]

/-- `MonthBetweenCond.endRangeStartingOn`. -/
def mbEndRangeStartingOn (startM endM : Int) (start : Int) : Int :=
  if startM ≤ endM then mkTime (getFullYear start) (endM + 1) 1 0 0 0 0
  else mkTime (getFullYear start + 1) (endM + 1) 1 0 0 0 0

/-- `MonthBetweenCond.lastActiveRange`. -/
def mbLastActiveRange (startM endM : Int) (date : Int) : Option DateRange :=
  let startDate0 := mkTime (getFullYear date) startM 1 0 0 0 0
  let startDate :=
    if startM ≤ getMonth date then startDate0
    else setFullYear startDate0 (getFullYear startDate0 - 1)
  some ⟨startDate, some (mbEndRangeStartingOn startM endM startDate)⟩

/-- `MonthBetweenCond.nextRanges`. -/
def mbNextRanges (startM endM : Int) (searchAfter : Int) : List DateRange :=
  let startDate0 := mkTime (getFullYear searchAfter) startM 1 0 0 0 0
  let startDate :=
    if startM ≤ getMonth searchAfter then setFullYear startDate0 (getFullYear startDate0 + 1)
    else startDate0
  processRanges [⟨startDate, some (mbEndRangeStartingOn startM endM startDate)⟩]

/-- `DateBetweenCond.getConcreteRange`. -/
def dbConcrete (year : Int) (md : MonthDay) : Int := mkTime year md.month md.day 0 0 0 0

/-- `DateBetweenCond.endRange`. -/
def dbEndRange (eMD : MonthDay) (relativeTo startDate endDate : Int) : Int :=
  let d :=
    if startDate ≤ endDate then dbConcrete (getFullYear relativeTo) eMD
    else dbConcrete (getFullYear relativeTo + 1) eMD
  setDate d (getDate d + 1)

/-- `DateBetweenCond.lastActiveRange`. -/
def dbLastActiveRange (sMD eMD : MonthDay) (date : Int) : Option DateRange :=
  let startDate := dbConcrete (getFullYear date) sMD
  let endDate := dbConcrete (getFullYear date) eMD
  let actualStart :=
    if startDate ≤ date then startDate
    else setFullYear startDate (getFullYear startDate - 1)
  some ⟨actualStart, some (dbEndRange eMD actualStart startDate endDate)⟩

/-- `DateBetweenCond.nextRanges`. -/
def dbNextRanges (sMD eMD : MonthDay) (searchAfter : Int) : List DateRange :=
  let startDate := dbConcrete (getFullYear searchAfter) sMD
  let endDate := dbConcrete (getFullYear searchAfter) eMD
  let actualStart :=
    if startDate ≤ searchAfter then setFullYear startDate (getFullYear startDate + 1)
    else startDate
  processRanges [⟨actualStart, some (dbEndRange eMD actualStart startDate endDate)⟩]

/-- `DayBetweenCond.endRangeStartingOn`. -/
def dayBEndRangeStartingOn (startD endD : Int) (start : Int) : Int :=
  if startD ≤ endD then mkTime (getFullYear start) (getMonth start) (endD + 1) 0 0 0 0
  else mkTime (getFullYear start) (getMonth start + 1) (endD + 1) 0 0 0 0

/-- `DayBetweenCond.lastActiveRange`. -/
def dayBLastActiveRange (startD endD : Int) (date : Int) : Option DateRange :=
  let startDate0 := mkTime (getFullYear date) (getMonth date) startD 0 0 0 0
  let startDate :=
    if startD ≤ getDate date then startDate0
    else setMonth startDate0 (getMonth startDate0 - 1)
  some ⟨startDate, some (dayBEndRangeStartingOn startD endD startDate)⟩

/-- `DayBetweenCond.nextRanges`. -/
def dayBNextRanges (startD endD : Int) (searchAfter : Int) : List DateRange :=
  let startDate0 := mkTime (getFullYear searchAfter) (getMonth searchAfter) startD 0 0 0 0
  let startDate :=
    if startD ≤ getDate searchAfter then setMonth startDate0 (getMonth startDate0 + 1)
    else startDate0
  processRanges [⟨startDate, some (dayBEndRangeStartingOn startD endD startDate)⟩]

/-- `TimeSpanCond.endRange`: add the declared components in order. -/
def tsEndRange (months days hours minutes seconds : Int) (startDate : Int) : Int :=
  let d1 := setMonth startDate (getMonth startDate + months)
  let d2 := setDate d1 (getDate d1 + days)
  let d3 := setHoursOnly d2 (getHours d2 + hours)
  let d4 := setMinutes d3 (getMinutes d3 + minutes)
  setSeconds d4 (getSeconds d4 + seconds)

/-- `TimeSpanCond.lastActiveRange`: floor to the bucket boundary of the
smallest non-zero unit, then add the duration. -/
def tsLastActiveRange (months days hours minutes seconds : Int) (date : Int) :
    Option DateRange :=
  let s0 := setMilliseconds date 0
  let startDate :=
    if seconds = 0 then
      let s1 := setSeconds s0 0
      if minutes = 0 then
        let s2 := setMinutes s1 0
        if hours = 0 then
          let s3 := setHoursOnly s2 0
          if days = 0 then setDate s3 1 else s3
        else s2
      else s1
    else s0
  some ⟨startDate, some (tsEndRange months days hours minutes seconds startDate)⟩

/-- `TimeSpanCond.nextRanges`: advance the smallest non-zero unit by one
(the months-only branch resets the day without advancing the month). -/
def tsNextRanges (months days hours minutes seconds : Int) (searchAfter : Int) :
    List DateRange :=
  let s0 := setMilliseconds searchAfter 0
  let startDate :=
    if seconds > 0 then setSeconds s0 (getSeconds s0 + 1)
    else
      let s1 := setSeconds s0 0
      if minutes > 0 then setMinutes s1 (getMinutes s1 + 1)
      else
        let s2 := setMinutes s1 0
        if hours > 0 then setHoursOnly s2 (getHours s2 + 1)
        else
          let s3 := setHoursOnly s2 0
          if days > 0 then setDate s3 (getDate s3 + 1)
          else setDate s3 1
  processRanges [⟨startDate, some (tsEndRange months days hours minutes seconds startDate)⟩]

/-- `WeekDay.lastActiveRange`. -/
def wdLastActiveRange (n : Int) (date : Int) : Option DateRange :=
  let daysAgo := jsRem (getDay date - n + 7) 7
  let lastInstanceDate := setHMSms (setDate date (getDate date - daysAgo)) 0 0 0 0
  let lastInstanceEnd := setDate lastInstanceDate (getDate lastInstanceDate + 1)
  some ⟨lastInstanceDate, some lastInstanceEnd⟩

/-- `WeekDay.nextRanges`. -/
def wdNextRanges (n : Int) (searchAfter : Int) : List DateRange :=
  let d0 := n - getDay searchAfter
  let daysUntil := if d0 ≤ 0 then d0 + 7 else d0
  let nextStartDate := setHMSms (setDate searchAfter (getDate searchAfter + daysUntil)) 0 0 0 0
  let nextEndDate := setDate nextStartDate (getDate nextStartDate + 1)
  processRanges [⟨nextStartDate, some nextEndDate⟩]

/-! ### Loop combinators for the combinators' `while` loops -/

/-- The advance loop of `NthCond._nextRanges`: from the current set, seek
`k` more times from the last range's end; empty when the child's sequence
terminates (no last range, or an open-ended one). -/
def nthAdvance (next : Int → Option (List DateRange)) :
    Nat → List DateRange → Option (List DateRange)
  | 0, cur => some cur
  | k + 1, cur =>
      match lastRange cur with
      | none => some []
      | some r =>
          match r.stop with
          | none => some []
          | some e =>
              match next e with
              | none => none
              | some cur' => nthAdvance next k cur'

/-- `NthCond._nextRanges(searchAfter)` with `k = n - 1`. -/
def nthSeekFrom (next : Int → Option (List DateRange)) (k : Nat) (searchAfter : Int) :
    Option (List DateRange) :=
  match next searchAfter with
  | none => none
  | some c0 => nthAdvance next k c0

/-- The candidate loop of `NthCond.lastActiveRange`. -/
def nthLALoop (seek : Int → Option (List DateRange)) :
    Nat → Int → List DateRange → List DateRange → Option (Option DateRange)
  | 0, _, _, _ => none
  | k + 1, date, candidate, nr =>
      match firstDate nr with
      | none => some (lastRange candidate)
      | some fd =>
          if date < fd then some (lastRange candidate)
          else
            match lastDate nr with
            | none => some (lastRange candidate)
            | some e =>
                match seek e with
                | none => none
                | some nr' => nthLALoop seek k date nr nr'

/-- The candidate loop of `NthCond.nextRanges`. -/
def nthNRLoop (seek : Int → Option (List DateRange)) :
    Nat → Int → List DateRange → Option (List DateRange)
  | 0, _, _ => none
  | k + 1, searchAfter, cand =>
      match firstDate cand with
      | none => some cand
      | some fd =>
          if searchAfter < fd then some cand
          else
            match lastDate cand with
            | none => some []
            | some e =>
                match seek e with
                | none => none
                | some cand' => nthNRLoop seek k searchAfter cand'

/-- The expansion loop of `AndCond`: keep querying the child's next
ranges and accumulating their union while the frontier's last date stays
at or below the bound (`latestEnd`, or the reference date for
`lastActiveRange` when `latestEnd` is absent; `none` means the loop
cannot run, as in `nextRanges` with no `latestEnd`). -/
def andExpand (next : Int → Option (List DateRange)) :
    Nat → Option Int → List DateRange → List DateRange → Option (List DateRange)
  | 0, _, _, _ => none
  | k + 1, bound, condRanges, acc =>
      match lastDate condRanges with
      | none => some acc
      | some e =>
          match bound with
          | none => some acc
          | some b =>
              if e ≤ b then
                match next e with
                | none => none
                | some condRanges' => andExpand next k bound condRanges' (unionImpl acc condRanges')
              else some acc

/-- Fold computing `AndCond`'s `earliestStart` from the children's last
active ranges. -/
def foldEarliest (rs : List (Option DateRange)) : Option Int :=
  rs.foldl (fun acc r? =>
    match r? with
    | none => acc
    | some r =>
        match acc with
        | none => some r.start
        | some es => if r.start < es then some r.start else some es) none

/-- Fold computing `AndCond`'s `latestEnd`: the source overwrites an
unset `latestEnd` with the child's end even when that end is absent. -/
def foldLatest (rs : List (Option DateRange)) : Option Int :=
  rs.foldl (fun acc r? =>
    match r? with
    | none => acc
    | some r =>
        match acc with
        | none => r.stop
        | some le =>
            match r.stop with
            | some e => if le < e then some e else some le
            | none => some le) none

/-! ### The three queries -/

mutual

/-- `Cond.lastActiveRange`, fuel-indexed; `none` = fuel exhausted. -/
def lastActiveRange : Nat → Cond → Int → Option (Option DateRange)
  | 0, _, _ => none
  | fuel + 1, c, date =>
    match c with
    | .timeDelta startTime delta =>
        some (if startTime + delta ≤ date then some ⟨startTime + delta, none⟩ else none)
    | .timeBetween range => some (tbLastActiveRange range date)
    | .monthBetween sM eM => some (mbLastActiveRange sM eM date)
    | .dateBetween sMD eMD => some (dbLastActiveRange sMD eMD date)
    | .dayBetween sD eD => some (dayBLastActiveRange sD eD date)
    | .timeSpan mo d h mi s => some (tsLastActiveRange mo d h mi s date)
    | .weekDay n => some (wdLastActiveRange n date)
    | .or cs => do
        let rs ← cs.mapM fun c' => lastActiveRange fuel c' date
        let resultSet := rs.foldl (fun acc r? =>
          match r? with
          | some r => unionImpl acc [r]
          | none => acc) []
        pure resultSet.getLast?
    | .and cs => do
        let rs ← cs.mapM fun c' => lastActiveRange fuel c' date
        match foldEarliest rs with
        | none => pure none
        | some es1 => do
            let rs2 ← cs.mapM fun c' => lastActiveRange fuel c' es1
            let es :=
              match foldEarliest rs2 with
              | some es2 => es2
              | none => es1
            let le0 := foldLatest rs
            let inter ← cs.foldlM (fun acc c' => do
                let condR ← lastActiveRange fuel c' es
                let ref0 :=
                  match condR with
                  | some r => r.start
                  | none => es
                let refStart := setMilliseconds ref0 (getMilliseconds ref0 - 1)
                let condRanges ← nextRanges fuel c' refStart
                let bound :=
                  match le0 with
                  | some l => some l
                  | none => some date
                let unionRanges ← andExpand (fun u => nextRanges fuel c' u) fuel bound
                  condRanges (unionImpl [] condRanges)
                pure (intersectionImpl acc unionRanges))
              (processRanges [⟨es, le0⟩])
            let final := inter.filter fun r => decide (r.start ≤ date)
            pure final.getLast?
    | .nth startDate n child => do
        let vf ← nthSeekFrom (fun u => nextRanges fuel child u) (n - 1).toNat startDate
        match firstDate vf with
        | none => pure none
        | some fd =>
            if date < fd then pure none
            else
              match lastDate vf with
              | none => pure (lastRange vf)
              | some ld => do
                  let nr ← nthSeekFrom (fun u => nextRanges fuel child u) (n - 1).toNat ld
                  nthLALoop
                    (fun u => nthSeekFrom (fun v => nextRanges fuel child v) (n - 1).toNat u)
                    fuel date vf nr
    | .firstAfterStart refCond relativeCond incl => do
        let er? ← lastActiveRange fuel relativeCond date
        match er? with
        | none => pure none
        | some er =>
            let erStart :=
              if incl then er.start
              else setMilliseconds er.start (getMilliseconds er.start - 1)
            let rr? ← lastActiveRange fuel refCond erStart
            match rr? with
            | none => pure none
            | some rr =>
                let rrStart :=
                  if incl then setMilliseconds rr.start (getMilliseconds rr.start - 1)
                  else rr.start
                let rel ← nextRanges fuel relativeCond rrStart
                pure rel.head?

/-- `Cond.nextRanges`, fuel-indexed; `none` = fuel exhausted. -/
def nextRanges : Nat → Cond → Int → Option (List DateRange)
  | 0, _, _ => none
  | fuel + 1, c, searchAfter =>
    match c with
    | .timeDelta startTime delta => do
        let r? ← lastActiveRange fuel (.timeDelta startTime delta) searchAfter
        let isIn :=
          match r? with
          | some r => inDateRangeImpl searchAfter r
          | none => false
        if isIn then pure (processRanges [])
        else pure (processRanges [⟨startTime + delta, none⟩])
    | .timeBetween range => some (tbNextRanges range searchAfter)
    | .monthBetween sM eM => some (mbNextRanges sM eM searchAfter)
    | .dateBetween sMD eMD => some (dbNextRanges sMD eMD searchAfter)
    | .dayBetween sD eD => some (dayBNextRanges sD eD searchAfter)
    | .timeSpan mo d h mi s => some (tsNextRanges mo d h mi s searchAfter)
    | .weekDay n => some (wdNextRanges n searchAfter)
    | .or cs => do
        let sets ← cs.mapM fun c' => nextRanges fuel c' searchAfter
        pure (sets.foldl (fun acc s => unionImpl acc s) [])
    | .and cs => do
        let pairs ← cs.mapM fun c' => do
          let r? ← lastActiveRange fuel c' searchAfter
          match r? with
          | none => pure none
          | some r => do
              let nr ← nextRanges fuel c' searchAfter
              pure (some (r, nr))
        let es0 := pairs.foldl (fun acc p? =>
          match p? with
          | none => acc
          | some (r, nr) =>
              let acc1 :=
                match acc with
                | none => some r.start
                | some es => if r.start < es then some r.start else some es
              match acc1 with
              | none => firstDate nr
              | some es =>
                  match firstDate nr with
                  | some fd => if fd < es then some fd else some es
                  | none => some es) none
        let le0 := pairs.foldl (fun acc p? =>
          match p? with
          | none => acc
          | some (_, nr) =>
              match acc with
              | none => lastDate nr
              | some le =>
                  match lastDate nr with
                  | some e => if le < e then some e else some le
                  | none => some le) none
        match es0 with
        | none => pure (processRanges [])
        | some es1 => do
            let inter ← cs.foldlM (fun acc c' => do
                let condR ← lastActiveRange fuel c' es1
                let ref0 :=
                  match condR with
                  | some r => r.start
                  | none => es1
                let refStart := setMilliseconds ref0 (getMilliseconds ref0 - 1)
                let condRanges ← nextRanges fuel c' refStart
                let unionRanges ← andExpand (fun u => nextRanges fuel c' u) fuel le0
                  condRanges (unionImpl [] condRanges)
                pure (intersectionImpl acc unionRanges))
              (processRanges [⟨es1, le0⟩])
            pure (inter.filter fun r => decide (searchAfter < r.start))
    | .nth startDate n child => do
        let cand0 ← nthSeekFrom (fun u => nextRanges fuel child u) (n - 1).toNat startDate
        nthNRLoop
          (fun u => nthSeekFrom (fun v => nextRanges fuel child v) (n - 1).toNat u)
          fuel searchAfter cand0
    | .firstAfterStart refCond relativeCond incl => do
        let refR? ← lastActiveRange fuel refCond searchAfter
        let tryCurrent ←
          match refR? with
          | none => pure (none : Option (List DateRange))
          | some refR =>
              if inDateRangeImpl searchAfter refR then do
                let refStart :=
                  if incl then setMilliseconds refR.start (getMilliseconds refR.start - 1)
                  else refR.start
                let rs ← nextRanges fuel relativeCond refStart
                match firstDate rs with
                | some fd =>
                    if searchAfter < fd then pure (some rs) else pure none
                | none => pure none
              else pure none
        match tryCurrent with
        | some rs => pure rs
        | none => do
            let refRs ← nextRanges fuel refCond searchAfter
            refRs.foldlM (fun acc r => do
                let rStart :=
                  if incl then setMilliseconds r.start (getMilliseconds r.start - 1)
                  else r.start
                let ch ← nextRanges fuel relativeCond rStart
                pure (unionImpl acc ch)) []

end

/-- `Cond.inRange` (`contains`): the last active range exists and holds
the date. -/
def inRange (fuel : Nat) (c : Cond) (date : Int) : Option Bool := do
  let r? ← lastActiveRange fuel c date
  pure
    (match r? with
     | some r => inDateRangeImpl date r
     | none => false)

/-! ### Validating constructors (§7 error table) -/

/-- `MonthBetweenCond`'s constructor check. -/
def mkMonthBetweenCond (startM endM : Int) : Option Cond :=
  if startM < 0 ∨ startM > 11 ∨ endM < 0 ∨ endM > 11 then none
  else some (.monthBetween startM endM)

/-- `DateBetweenCond`'s constructor check. -/
def mkDateBetweenCond (startMD endMD : MonthDay) : Option Cond :=
  if startMD.month < 0 ∨ startMD.month > 11 ∨ endMD.month < 0 ∨ endMD.month > 11 ∨
      startMD.day < 1 ∨ startMD.day > 31 ∨ endMD.day < 1 ∨ endMD.day > 31 then none
  else some (.dateBetween startMD endMD)

/-- `DayBetweenCond`'s constructor check. -/
def mkDayBetweenCond (startD endD : Int) : Option Cond :=
  if startD < 1 ∨ startD > 31 ∨ endD < 1 ∨ endD > 31 then none
  else some (.dayBetween startD endD)

/-- `WeekDay`'s constructor check. -/
def mkWeekDay (weekDayNumber : Int) : Option Cond :=
  if weekDayNumber < 0 ∨ weekDayNumber > 6 then none
  else some (.weekDay weekDayNumber)

/-- `TimeSpanCond`'s constructor checks (negative component; all-zero). -/
def mkTimeSpanCond (months days hours minutes seconds : Int) : Option Cond :=
  if months < 0 ∨ days < 0 ∨ hours < 0 ∨ minutes < 0 ∨ seconds < 0 then none
  else if months = 0 ∧ days = 0 ∧ hours = 0 ∧ minutes = 0 ∧ seconds = 0 then none
  else some (.timeSpan months days hours minutes seconds)

/-- `OrCond`'s constructor check. -/
def mkOrCond (conditions : List Cond) : Option Cond :=
  if conditions.isEmpty then none else some (.or conditions)

/-- `AndCond`'s constructor check. -/
def mkAndCond (conditions : List Cond) : Option Cond :=
  if conditions.isEmpty then none else some (.and conditions)

/-! ### A stateful view of `FirstAfterStartCond` over a `TimeDeltaCond` -/

/-- `FirstAfterStartCond(refCond, TimeDeltaCond, inclusive = false)
.lastActiveRange`, with the `TimeDeltaCond`'s `validFrom` field made
explicit state.  In the source, `TimeDeltaCond.lastActiveRange` returns
`new DateRange(this.validFrom)` whose `start` aliases the stored
`validFrom` `Date` object, and `FirstAfterStartCond.lastActiveRange`
then runs `earliestRelativeRange.start.setMilliseconds(… - 1)` on that
object, so the child's `validFrom` itself moves 1 ms earlier.  The
function returns the query's result paired with the `validFrom` the
child holds after the query. -/
def faTimeDeltaLastActiveRange (refCond : Cond) (fuel : Nat) (validFrom date : Int) :
    Option (Option DateRange × Int) :=
  if validFrom ≤ date then
    let validFrom1 := setMilliseconds validFrom (getMilliseconds validFrom - 1)
    match lastActiveRange fuel refCond validFrom1 with
    | none => none
    | some none => some (none, validFrom1)
    | some (some rr) =>
        let relRanges : List DateRange :=
          if inDateRangeImpl rr.start ⟨validFrom1, none⟩ then []
          else [⟨validFrom1, none⟩]
        some (relRanges.head?, validFrom1)
  else some (none, validFrom)

/-- Midnight at the start of the civil day holding `t`. -/
def startOfDay (t : Int) : Int := dayNumber t * 86400000

/-- The candidate sets of `NthCond`: candidate `0` is `seek anchor`, and
each next candidate reseeks from the previous candidate's last date. -/
def candSeq (seek : Int → Option (List DateRange)) (anchor : Int) :
    Nat → Option (List DateRange)
  | 0 => seek anchor
  | j + 1 =>
      (candSeq seek anchor j).bind fun c => (lastDate c).bind fun e => seek e

/-- Well-formed condition trees: every stored field satisfies its
constructor's validation (§7), including the `TimeBetweenCond` invariant
that stored day times are in range. -/
inductive WF : Cond → Prop where
  | timeDelta (startTime delta : Int) : WF (.timeDelta startTime delta)
  | timeBetween (range : DayTimeRange) :
      0 ≤ range.start.hour → range.start.hour ≤ 23 →
      0 ≤ range.start.minute → range.start.minute ≤ 59 →
      0 ≤ range.stop.hour → range.stop.hour ≤ 23 →
      0 ≤ range.stop.minute → range.stop.minute ≤ 59 →
      WF (.timeBetween range)
  | monthBetween (s e : Int) : 0 ≤ s → s ≤ 11 → 0 ≤ e → e ≤ 11 →
      WF (.monthBetween s e)
  | dateBetween (s e : MonthDay) :
      0 ≤ s.month → s.month ≤ 11 → 1 ≤ s.day → s.day ≤ 31 →
      0 ≤ e.month → e.month ≤ 11 → 1 ≤ e.day → e.day ≤ 31 →
      WF (.dateBetween s e)
  | dayBetween (s e : Int) : 1 ≤ s → s ≤ 31 → 1 ≤ e → e ≤ 31 →
      WF (.dayBetween s e)
  | timeSpan (mo d h mi s : Int) : 0 ≤ mo → 0 ≤ d → 0 ≤ h → 0 ≤ mi → 0 ≤ s →
      WF (.timeSpan mo d h mi s)
  | weekDay (n : Int) : 0 ≤ n → n ≤ 6 → WF (.weekDay n)
  | or (cs : List Cond) : (∀ c ∈ cs, WF c) → WF (.or cs)
  | and (cs : List Cond) : (∀ c ∈ cs, WF c) → WF (.and cs)
  | nth (a n : Int) (c : Cond) : WF c → WF (.nth a n c)
  | firstAfterStart (rc relc : Cond) (incl : Bool) : WF rc → WF relc →
      WF (.firstAfterStart rc relc incl)

/-- No `TimeSpanCond` subterm is months-only (such a span's `nextRanges`
resets to the start of the current month instead of advancing). -/
inductive NoBareMonthSpan : Cond → Prop where
  | timeDelta (startTime delta : Int) : NoBareMonthSpan (.timeDelta startTime delta)
  | timeBetween (range : DayTimeRange) : NoBareMonthSpan (.timeBetween range)
  | monthBetween (s e : Int) : NoBareMonthSpan (.monthBetween s e)
  | dateBetween (s e : MonthDay) : NoBareMonthSpan (.dateBetween s e)
  | dayBetween (s e : Int) : NoBareMonthSpan (.dayBetween s e)
  | timeSpan (mo d h mi s : Int) : ¬(d = 0 ∧ h = 0 ∧ mi = 0 ∧ s = 0) →
      NoBareMonthSpan (.timeSpan mo d h mi s)
  | weekDay (n : Int) : NoBareMonthSpan (.weekDay n)
  | or (cs : List Cond) : (∀ c ∈ cs, NoBareMonthSpan c) → NoBareMonthSpan (.or cs)
  | and (cs : List Cond) : (∀ c ∈ cs, NoBareMonthSpan c) → NoBareMonthSpan (.and cs)
  | nth (a n : Int) (c : Cond) : NoBareMonthSpan c → NoBareMonthSpan (.nth a n c)
  | firstAfterStart (rc relc : Cond) (incl : Bool) :
      NoBareMonthSpan rc → NoBareMonthSpan relc →
      NoBareMonthSpan (.firstAfterStart rc relc incl)

/-- Modelled from the spec's words for C10: `t` floored to the bucket
boundary of the smallest non-zero unit (the month bucket starts at the
first of the civil month). -/
def specBucketFloor (days hours minutes seconds t : Int) : Int :=
  if seconds = 0 then
    if minutes = 0 then
      if hours = 0 then
        if days = 0 then monthStartDay (monthIdxOfDay (dayNumber t)) * 86400000
        else t - t % 86400000
      else t - t % 3600000
    else t - t % 60000
  else t - t % 1000

/-! ### Claim theorems -/

theorem jsRem_nonneg {a : Int} (b : Int) (h : 0 ≤ a) : jsRem a b = a % b := by
  simp [jsRem, h]

theorem setDate_sub (t d : Int) : setDate t (getDate t - d) = t - d * 86400000 := by
  have h := setDate_shift t (-d)
  rw [show getDate t + -d = getDate t - d by ring] at h
  rw [h]; ring

theorem setHMSms_zero (t : Int) : setHMSms t 0 0 0 0 = startOfDay t := by
  simp [setHMSms, startOfDay]

theorem processRanges_singleton (r : DateRange) : processRanges [r] = [r] := rfl

/-- `WeekDay.lastActiveRange` in closed form: the full civil day lying
`(dayOfWeek − n + 7) mod 7` days back. -/
theorem wdLastActiveRange_eq (n date : Int) (h1 : n ≤ 6) :
    wdLastActiveRange n date =
      some ⟨startOfDay (date - (getDay date - n + 7) % 7 * 86400000),
        some (startOfDay (date - (getDay date - n + 7) % 7 * 86400000) + 86400000)⟩ := by
  have ha : 0 ≤ getDay date - n + 7 := by
    have h2 : 0 ≤ (dayNumber date + 4) % 7 := Int.emod_nonneg _ (by norm_num)
    unfold getDay
    omega
  simp only [wdLastActiveRange, jsRem_nonneg _ ha, setDate_sub, setHMSms_zero,
    setDate_shift, one_mul]

/-- `WeekDay.nextRanges` in closed form: the full civil day
`n − dayOfWeek` days ahead, pushed a week out when that is ≤ 0. -/
theorem wdNextRanges_eq (n date : Int) :
    wdNextRanges n date =
      [⟨startOfDay (date + (if n - getDay date ≤ 0 then n - getDay date + 7
            else n - getDay date) * 86400000),
        some (startOfDay (date + (if n - getDay date ≤ 0 then n - getDay date + 7
            else n - getDay date) * 86400000) + 86400000)⟩] := by
  simp only [wdNextRanges, processRanges_singleton, setHMSms_zero, setDate_shift, one_mul]

theorem candSeq_zero (seek : Int → Option (List DateRange)) (anchor : Int) :
    candSeq seek anchor 0 = seek anchor := rfl

theorem candSeq_succ (seek : Int → Option (List DateRange)) (anchor : Int) (j : Nat) :
    candSeq seek anchor (j + 1) =
      (candSeq seek anchor j).bind fun c => (lastDate c).bind fun e => seek e := rfl

/-- Re-anchoring the candidate sequence at the first candidate's last
date drops the sequence's head. -/
theorem candSeq_shift (seek : Int → Option (List DateRange)) (anchor e0 : Int)
    (c0 : List DateRange) (h0 : seek anchor = some c0) (he : lastDate c0 = some e0) :
    ∀ j : Nat, candSeq seek anchor (j + 1) = candSeq seek e0 j := by
  intro j
  induction j with
  | zero =>
      rw [candSeq_succ, candSeq_zero, h0, Option.some_bind, he, Option.some_bind,
        candSeq_zero]
  | succ j ih =>
      rw [candSeq_succ, ih, candSeq_succ]

/-- A run of `NthCond.lastActiveRange`'s candidate loop: when candidates
`0..K` all start at or before the date and candidate `K + 1` stops the
loop (empty, starting after the date, or open-ended), the loop returns
the last range of candidate `K`. -/
theorem nthLALoop_candSeq :
    ∀ (K : Nat) (seek : Int → Option (List DateRange)) (date anchor : Int) (k : Nat),
      K < k →
      (∀ j : Nat, j ≤ K → ∃ c f e, candSeq seek anchor j = some c ∧
        firstDate c = some f ∧ f ≤ date ∧ lastDate c = some e) →
      (∃ c', candSeq seek anchor (K + 1) = some c' ∧
        (firstDate c' = none ∨ (∃ f, firstDate c' = some f ∧ date < f) ∨
          lastDate c' = none)) →
      ∀ c0 c1, candSeq seek anchor 0 = some c0 → candSeq seek anchor 1 = some c1 →
        ∃ cK, candSeq seek anchor K = some cK ∧
          nthLALoop seek k date c0 c1 = some (lastRange cK) := by
  intro K
  induction K with
  | zero =>
      intro seek date anchor k hk hj hstop c0 c1 h0 h1
      refine ⟨c0, h0, ?_⟩
      obtain ⟨k', rfl⟩ : ∃ k', k = k' + 1 := ⟨k - 1, by omega⟩
      obtain ⟨c', hc', hs⟩ := hstop
      have hcc : c' = c1 := by rw [hc'] at h1; exact Option.some.inj h1
      rw [← hcc]
      rcases hs with hfn | ⟨f, hf, hlt⟩ | hln
      · simp [nthLALoop, hfn]
      · simp [nthLALoop, hf, hlt]
      · rcases hfc : firstDate c' with _ | f
        · simp [nthLALoop, hfc]
        · simp only [nthLALoop, hfc]
          split
          · rfl
          · simp [hln]
  | succ K ih =>
      intro seek date anchor k hk hj hstop c0 c1 h0 h1
      obtain ⟨k', rfl⟩ : ∃ k', k = k' + 1 := ⟨k - 1, by omega⟩
      obtain ⟨c0', f0, e0, h0', hf0, hle0, hld0⟩ := hj 0 (Nat.zero_le _)
      have hc00 : c0' = c0 := by
        rw [h0] at h0'
        exact (Option.some.inj h0').symm
      rw [hc00] at hf0 hld0
      obtain ⟨c1', f1, e1, h1', hf1, hle1, hld1⟩ := hj 1 (by omega)
      have hc11 : c1' = c1 := by
        rw [h1] at h1'
        exact (Option.some.inj h1').symm
      rw [hc11] at hf1 hld1
      have h0s : seek anchor = some c0 := h0
      have hsh := candSeq_shift seek anchor e0 c0 h0s hld0
      have he0 : candSeq seek e0 0 = some c1 := by rw [← hsh 0]; exact h1
      have he1 : ∃ c2, candSeq seek e0 1 = some c2 := by
        rw [← hsh 1]
        by_cases h2K : 2 ≤ K + 1
        · obtain ⟨c2, _, _, hc2, _⟩ := hj 2 h2K
          exact ⟨c2, hc2⟩
        · have hK0 : K = 0 := by omega
          subst hK0
          obtain ⟨c', hc', _⟩ := hstop
          exact ⟨c', hc'⟩
      obtain ⟨c2, he1⟩ := he1
      have hj' : ∀ j : Nat, j ≤ K → ∃ c f e, candSeq seek e0 j = some c ∧
          firstDate c = some f ∧ f ≤ date ∧ lastDate c = some e := by
        intro j hjK
        rw [← hsh j]
        exact hj (j + 1) (by omega)
      have hstop' : ∃ c', candSeq seek e0 (K + 1) = some c' ∧
          (firstDate c' = none ∨ (∃ f, firstDate c' = some f ∧ date < f) ∨
            lastDate c' = none) := by
        rw [← hsh (K + 1)]
        exact hstop
      obtain ⟨cK, hcK, hloop⟩ := ih seek date e0 k' (by omega) hj' hstop' c1 c2 he0 he1
      refine ⟨cK, by rw [hsh K]; exact hcK, ?_⟩
      have hseek2 : seek e1 = some c2 := by
        rw [candSeq_succ, he0, Option.some_bind, hld1, Option.some_bind] at he1
        exact he1
      simp only [nthLALoop, hf1]
      rw [if_neg (not_lt.mpr hle1)]
      simp only [hld1, hseek2]
      exact hloop

/-- The `NthCond` case of `lastActiveRange`, unfolded. -/
theorem nth_lastActiveRange_unfold (fuel : Nat) (anchor n : Int) (child : Cond)
    (date : Int) :
    lastActiveRange (fuel + 1) (.nth anchor n child) date =
      (nthSeekFrom (fun u => nextRanges fuel child u) (n - 1).toNat anchor).bind fun vf =>
        match firstDate vf with
        | none => some none
        | some fd =>
            if date < fd then some none
            else
              match lastDate vf with
              | none => some (lastRange vf)
              | some ld =>
                  (nthSeekFrom (fun u => nextRanges fuel child u) (n - 1).toNat ld).bind
                    fun nr =>
                      nthLALoop (fun u => nthSeekFrom (fun v => nextRanges fuel child v)
                        (n - 1).toNat u) fuel date vf nr := rfl

set_option maxRecDepth 10000 in
/-- C7: for a weekday index in 0–6, `WeekDay(n).lastActiveRange(t)` is
the full day `(dayOfWeek(t) − n + 7) mod 7` days back, and
`WeekDay(n).nextRanges(t)` is the singleton full day `n − dayOfWeek(t)`
days ahead (plus 7 when that is ≤ 0); in particular `WeekDay(0)` at
Sunday 2024-03-03 00:00 gives [2024-03-03, 2024-03-04) and its next
ranges at Monday 2024-03-04 00:00 are [2024-03-10, 2024-03-11). -/
theorem claim_C7_weekday :
    (∀ (fuel : Nat) (n t : Int), 0 ≤ n → n ≤ 6 →
      lastActiveRange (fuel + 1) (.weekDay n) t =
        some (some ⟨startOfDay (t - (getDay t - n + 7) % 7 * 86400000),
          some (startOfDay (t - (getDay t - n + 7) % 7 * 86400000) + 86400000)⟩) ∧
      nextRanges (fuel + 1) (.weekDay n) t =
        some [⟨startOfDay (t + (if n - getDay t ≤ 0 then n - getDay t + 7
            else n - getDay t) * 86400000),
          some (startOfDay (t + (if n - getDay t ≤ 0 then n - getDay t + 7
            else n - getDay t) * 86400000) + 86400000)⟩]) ∧
    lastActiveRange 1 (.weekDay 0) (mkTime 2024 2 3 0 0 0 0) =
      some (some ⟨mkTime 2024 2 3 0 0 0 0, some (mkTime 2024 2 4 0 0 0 0)⟩) ∧
    nextRanges 1 (.weekDay 0) (mkTime 2024 2 4 0 0 0 0) =
      some [⟨mkTime 2024 2 10 0 0 0 0, some (mkTime 2024 2 11 0 0 0 0)⟩] := by
  refine ⟨fun fuel n t _ h1 => ⟨?_, ?_⟩, by decide, by decide⟩
  · show some (wdLastActiveRange n t) = _
    rw [wdLastActiveRange_eq n t h1]
  · show some (wdNextRanges n t) = _
    rw [wdNextRanges_eq n t]

/-- Witness for C7 at `n = 2` (Tuesday) and 2024-03-15 10:30. -/
theorem claim_C7_weekday_witness :
    lastActiveRange 1 (.weekDay 2) (mkTime 2024 2 15 10 30 0 0) =
      some (some ⟨startOfDay (mkTime 2024 2 15 10 30 0 0 -
          (getDay (mkTime 2024 2 15 10 30 0 0) - 2 + 7) % 7 * 86400000),
        some (startOfDay (mkTime 2024 2 15 10 30 0 0 -
          (getDay (mkTime 2024 2 15 10 30 0 0) - 2 + 7) % 7 * 86400000) + 86400000)⟩) :=
  (claim_C7_weekday.1 0 2 (mkTime 2024 2 15 10 30 0 0) (by decide) (by decide)).1

set_option maxRecDepth 10000 in
/-- C8: `NthCond(anchor, n, child).lastActiveRange(t)` returns none when
the first candidate set starts after `t`, and otherwise the last range
of the latest candidate set whose start is at or before `t` — candidate
sets being produced by repeated seek (the child's `nextRanges` followed
by `n − 1` advances from the last range's end), re-anchored each time at
the previous candidate's last date; in particular
`NthCond(2024-03-01, 3, WeekDay Monday)` at 2024-03-20 returns
[2024-03-18, 2024-03-19). -/
theorem claim_C8_nth_last_active_range :
    lastActiveRange 12 (.nth (mkTime 2024 2 1 0 0 0 0) 3 (.weekDay 1))
        (mkTime 2024 2 20 0 0 0 0) =
      some (some ⟨mkTime 2024 2 18 0 0 0 0, some (mkTime 2024 2 19 0 0 0 0)⟩) ∧
    (∀ (fuel : Nat) (child : Cond) (anchor n date : Int) (c0 : List DateRange) (f0 : Int),
      nthSeekFrom (fun u => nextRanges fuel child u) (n - 1).toNat anchor = some c0 →
      firstDate c0 = some f0 → date < f0 →
      lastActiveRange (fuel + 1) (.nth anchor n child) date = some none) ∧
    (∀ (fuel : Nat) (child : Cond) (anchor n date : Int) (K : Nat),
      K < fuel →
      (∀ j : Nat, j ≤ K → ∃ c f e,
        candSeq (fun u => nthSeekFrom (fun v => nextRanges fuel child v) (n - 1).toNat u)
          anchor j = some c ∧ firstDate c = some f ∧ f ≤ date ∧ lastDate c = some e) →
      (∃ c', candSeq (fun u => nthSeekFrom (fun v => nextRanges fuel child v) (n - 1).toNat u)
          anchor (K + 1) = some c' ∧
        (firstDate c' = none ∨ (∃ f, firstDate c' = some f ∧ date < f) ∨
          lastDate c' = none)) →
      ∃ cK, candSeq (fun u => nthSeekFrom (fun v => nextRanges fuel child v) (n - 1).toNat u)
          anchor K = some cK ∧
        lastActiveRange (fuel + 1) (.nth anchor n child) date = some (lastRange cK)) := by
  refine ⟨by decide, ?_, ?_⟩
  · intro fuel child anchor n date c0 f0 h0 hf0 hlt
    rw [nth_lastActiveRange_unfold, h0]
    simp only [Option.some_bind, hf0]
    rw [if_pos hlt]
  · intro fuel child anchor n date K hK hj hstop
    obtain ⟨c0, f0, e0, h0, hf0, hle0, hld0⟩ := hj 0 (Nat.zero_le K)
    have h1 : ∃ c1, candSeq
        (fun u => nthSeekFrom (fun v => nextRanges fuel child v) (n - 1).toNat u)
        anchor 1 = some c1 := by
      by_cases h1K : 1 ≤ K
      · obtain ⟨c1, _, _, hc1, _⟩ := hj 1 h1K
        exact ⟨c1, hc1⟩
      · have hK0 : K = 0 := by omega
        subst hK0
        obtain ⟨c', hc', _⟩ := hstop
        exact ⟨c', hc'⟩
    obtain ⟨c1, hc1⟩ := h1
    obtain ⟨cK, hcK, hloop⟩ := nthLALoop_candSeq K
      (fun u => nthSeekFrom (fun v => nextRanges fuel child v) (n - 1).toNat u)
      date anchor fuel hK hj hstop c0 c1 h0 hc1
    refine ⟨cK, hcK, ?_⟩
    have h0s : nthSeekFrom (fun u => nextRanges fuel child u) (n - 1).toNat anchor =
        some c0 := h0
    have hse : nthSeekFrom (fun u => nextRanges fuel child u) (n - 1).toNat e0 =
        some c1 := by
      rw [candSeq_succ, h0, Option.some_bind, hld0, Option.some_bind] at hc1
      exact hc1
    rw [nth_lastActiveRange_unfold, h0s]
    simp only [Option.some_bind, hf0]
    rw [if_neg (not_lt.mpr hle0)]
    simp only [hld0, hse, Option.some_bind]
    exact hloop

theorem setSeconds_shift (t k : Int) : setSeconds t (getSeconds t + k) = t + k * 1000 := by
  unfold setSeconds getSeconds
  omega

theorem setMinutes_shift (t k : Int) :
    setMinutes t (getMinutes t + k) = t + k * 60000 := by
  unfold setMinutes getMinutes
  omega

theorem setHoursOnly_shift (t k : Int) :
    setHoursOnly t (getHours t + k) = t + k * 3600000 := by
  unfold setHoursOnly getHours dayNumber
  omega

/-- The day of the month is the offset from the month's start day. -/
theorem dateOfDay_eq (z : Int) : dateOfDay z = z - monthStartDay (monthIdxOfDay z) + 1 := by
  have hr := monthOfDay_range z
  unfold dateOfDay monthIdxOfDay monthStartDay
  have e1 : (12 * yearFromDay z + monthOfDay z) / 12 = yearFromDay z := by omega
  have e2 : (12 * yearFromDay z + monthOfDay z) % 12 = monthOfDay z := by omega
  rw [e1, e2]
  unfold dayWithinYear
  omega

/-- `setMonth` with a non-negative month increment never moves backwards. -/
theorem setMonth_add_ge (t k : Int) (hk : 0 ≤ k) : t ≤ setMonth t (getMonth t + k) := by
  have hrt := makeDayNum_roundtrip (dayNumber t)
  rw [makeDayNum_eq] at hrt
  have hmono := monthStartDay_mono
    (show 12 * yearFromDay (dayNumber t) + monthOfDay (dayNumber t) ≤
      12 * yearFromDay (dayNumber t) + (monthOfDay (dayNumber t) + k) by omega)
  have htd : t = dayNumber t * 86400000 + t % 86400000 := by unfold dayNumber; omega
  unfold setMonth getFullYear getMonth getDate timeWithinDay
  rw [makeDayNum_eq]
  omega

/-- `TimeSpanCond.endRange` adds at least the sub-month components. -/
theorem tsEndRange_ge (months days hours minutes seconds s : Int)
    (hm : 0 ≤ months) :
    s + days * 86400000 + hours * 3600000 + minutes * 60000 + seconds * 1000 ≤
      tsEndRange months days hours minutes seconds s := by
  have h1 := setMonth_add_ge s months hm
  simp only [tsEndRange, setDate_shift, setHoursOnly_shift, setMinutes_shift,
    setSeconds_shift]
  omega

/-- `setMonth` maps a month's start day to the shifted month's start day. -/
theorem setMonth_monthStart (k months : Int) :
    setMonth (monthStartDay k * 86400000)
        (getMonth (monthStartDay k * 86400000) + months) =
      monthStartDay (k + months) * 86400000 := by
  have hz : dayNumber (monthStartDay k * 86400000) = monthStartDay k := by
    unfold dayNumber; omega
  have hidx : monthIdxOfDay (monthStartDay k) = k :=
    monthIdxOfDay_eq (le_refl _) (monthStartDay_strictMono (show k < k + 1 by omega))
  have hidx' : 12 * yearFromDay (monthStartDay k) + monthOfDay (monthStartDay k) = k :=
    hidx
  have hdate : dateOfDay (monthStartDay k) = 1 := by
    rw [dateOfDay_eq, hidx]
    omega
  unfold setMonth getFullYear getMonth getDate timeWithinDay
  rw [hz, hdate, makeDayNum_eq]
  rw [show 12 * yearFromDay (monthStartDay k) + (monthOfDay (monthStartDay k) + months) =
      k + months from by omega]
  omega

/-- Months-only `TimeSpanCond.endRange` from a month start. -/
theorem tsEndRange_monthStart (k months : Int) :
    tsEndRange months 0 0 0 0 (monthStartDay k * 86400000) =
      monthStartDay (k + months) * 86400000 := by
  simp only [tsEndRange, setDate_shift, setHoursOnly_shift, setMinutes_shift,
    setSeconds_shift]
  rw [setMonth_monthStart]
  ring

/-- `TimeSpanCond.lastActiveRange` in closed form: the bucket floor and
the duration-shifted end. -/
theorem tsLastActiveRange_eq (months days hours minutes seconds t : Int) :
    tsLastActiveRange months days hours minutes seconds t =
      some ⟨specBucketFloor days hours minutes seconds t,
        some (tsEndRange months days hours minutes seconds
          (specBucketFloor days hours minutes seconds t))⟩ := by
  have hB : (if seconds = 0 then
        if minutes = 0 then
          if hours = 0 then
            if days = 0 then
              setDate (setHoursOnly (setMinutes (setSeconds (setMilliseconds t 0) 0) 0) 0) 1
            else setHoursOnly (setMinutes (setSeconds (setMilliseconds t 0) 0) 0) 0
          else setMinutes (setSeconds (setMilliseconds t 0) 0) 0
        else setSeconds (setMilliseconds t 0) 0
      else setMilliseconds t 0) = specBucketFloor days hours minutes seconds t := by
    unfold specBucketFloor
    by_cases hsec : seconds = 0
    · rw [if_pos hsec, if_pos hsec]
      by_cases hmin : minutes = 0
      · rw [if_pos hmin, if_pos hmin]
        by_cases hhr : hours = 0
        · rw [if_pos hhr, if_pos hhr]
          by_cases hdy : days = 0
          · rw [if_pos hdy, if_pos hdy]
            have hX : setHoursOnly (setMinutes (setSeconds (setMilliseconds t 0) 0) 0) 0 =
                dayNumber t * 86400000 := by
              unfold setHoursOnly setMinutes setSeconds setMilliseconds dayNumber
              omega
            rw [hX]
            have hz : dayNumber (dayNumber t * 86400000) = dayNumber t := by
              unfold dayNumber; omega
            unfold setDate getFullYear getMonth timeWithinDay monthIdxOfDay
            rw [hz, makeDayNum_eq]
            omega
          · rw [if_neg hdy, if_neg hdy]
            unfold setHoursOnly setMinutes setSeconds setMilliseconds dayNumber
            omega
        · rw [if_neg hhr, if_neg hhr]
          unfold setMinutes setSeconds setMilliseconds
          omega
      · rw [if_neg hmin, if_neg hmin]
        unfold setSeconds setMilliseconds
        omega
    · rw [if_neg hsec, if_neg hsec]
      unfold setMilliseconds
      omega
  simp only [tsLastActiveRange]
  rw [hB]

/-- The bucket floor never exceeds the instant. -/
theorem specBucketFloor_le (days hours minutes seconds t : Int) :
    specBucketFloor days hours minutes seconds t ≤ t := by
  have hchar := (monthIdxOfDay_char (dayNumber t)).1
  have htb : dayNumber t * 86400000 ≤ t := by unfold dayNumber; omega
  unfold specBucketFloor
  split
  · split
    · split
      · split
        · omega
        · omega
      · omega
    · omega
  · omega

/-- `Cond.inRange`, unfolded. -/
theorem inRange_unfold (fuel : Nat) (c : Cond) (date : Int) :
    inRange fuel c date = (lastActiveRange fuel c date).bind fun r? =>
      some (match r? with
        | some r => inDateRangeImpl date r
        | none => false) := rfl

/-- C10: a validly constructed `TimeSpanCond` is always active: its last
active range starts at the bucket floor of the smallest non-zero unit
(at or before `t`), ends strictly after `t` by the duration-shifted end,
and `contains(t)` is true at every instant. -/
theorem claim_C10_timespan_always_active :
    ∀ (fuel : Nat) (months days hours minutes seconds t : Int),
      0 ≤ months → 0 ≤ days → 0 ≤ hours → 0 ≤ minutes → 0 ≤ seconds →
      ¬(months = 0 ∧ days = 0 ∧ hours = 0 ∧ minutes = 0 ∧ seconds = 0) →
      lastActiveRange (fuel + 1) (.timeSpan months days hours minutes seconds) t =
        some (some ⟨specBucketFloor days hours minutes seconds t,
          some (tsEndRange months days hours minutes seconds
            (specBucketFloor days hours minutes seconds t))⟩) ∧
      specBucketFloor days hours minutes seconds t ≤ t ∧
      t < tsEndRange months days hours minutes seconds
        (specBucketFloor days hours minutes seconds t) ∧
      inRange (fuel + 1) (.timeSpan months days hours minutes seconds) t = some true := by
  intro fuel months days hours minutes seconds t hm hd hh hmi hs hnz
  have hla : lastActiveRange (fuel + 1) (.timeSpan months days hours minutes seconds) t =
      some (tsLastActiveRange months days hours minutes seconds t) := rfl
  have hle := specBucketFloor_le days hours minutes seconds t
  have hEnd : t < tsEndRange months days hours minutes seconds
      (specBucketFloor days hours minutes seconds t) := by
    by_cases hsec : seconds = 0
    · by_cases hmin : minutes = 0
      · by_cases hhr : hours = 0
        · by_cases hdy : days = 0
          · subst hsec hmin hhr hdy
            have hm1 : 1 ≤ months := by omega
            have hFv : specBucketFloor 0 0 0 0 t =
                monthStartDay (monthIdxOfDay (dayNumber t)) * 86400000 := by
              unfold specBucketFloor
              norm_num
            rw [hFv, tsEndRange_monthStart]
            have hchar := (monthIdxOfDay_char (dayNumber t)).2
            have hmono := monthStartDay_mono
              (show monthIdxOfDay (dayNumber t) + 1 ≤
                monthIdxOfDay (dayNumber t) + months by omega)
            have htb : t < (dayNumber t + 1) * 86400000 := by unfold dayNumber; omega
            omega
          · subst hsec hmin hhr
            have hFv : specBucketFloor days 0 0 0 t = t - t % 86400000 := by
              unfold specBucketFloor
              rw [if_pos rfl, if_pos rfl, if_pos rfl, if_neg hdy]
            have hge := tsEndRange_ge months days 0 0 0
              (specBucketFloor days 0 0 0 t) hm
            rw [hFv] at hge ⊢
            omega
        · subst hsec hmin
          have hFv : specBucketFloor days hours 0 0 t = t - t % 3600000 := by
            unfold specBucketFloor
            rw [if_pos rfl, if_pos rfl, if_neg hhr]
          have hge := tsEndRange_ge months days hours 0 0
            (specBucketFloor days hours 0 0 t) hm
          rw [hFv] at hge ⊢
          omega
      · subst hsec
        have hFv : specBucketFloor days hours minutes 0 t = t - t % 60000 := by
          unfold specBucketFloor
          rw [if_pos rfl, if_neg hmin]
        have hge := tsEndRange_ge months days hours minutes 0
          (specBucketFloor days hours minutes 0 t) hm
        rw [hFv] at hge ⊢
        omega
    · have hFv : specBucketFloor days hours minutes seconds t = t - t % 1000 := by
        unfold specBucketFloor
        rw [if_neg hsec]
      have hge := tsEndRange_ge months days hours minutes seconds
        (specBucketFloor days hours minutes seconds t) hm
      rw [hFv] at hge ⊢
      omega
  refine ⟨by rw [hla, tsLastActiveRange_eq], hle, hEnd, ?_⟩
  rw [inRange_unfold, hla, tsLastActiveRange_eq]
  simp only [Option.some_bind]
  simp [inDateRangeImpl, hle, hEnd]

/-- Witness for C10 at a 2-hour span and the instant 10000000
(1970-01-01 02:46:40). -/
theorem claim_C10_timespan_witness :
    lastActiveRange (0 + 1) (.timeSpan 0 0 2 0 0) 10000000 =
      some (some ⟨specBucketFloor 0 2 0 0 10000000,
        some (tsEndRange 0 0 2 0 0 (specBucketFloor 0 2 0 0 10000000))⟩) ∧
    specBucketFloor 0 2 0 0 10000000 ≤ 10000000 ∧
    10000000 < tsEndRange 0 0 2 0 0 (specBucketFloor 0 2 0 0 10000000) ∧
    inRange (0 + 1) (.timeSpan 0 0 2 0 0) 10000000 = some true :=
  claim_C10_timespan_always_active 0 0 0 2 0 0 10000000 (by decide) (by decide)
    (by decide) (by decide) (by decide) (by decide)

set_option maxRecDepth 10000 in
/-- Witness for C8: the loop characterization applied at
`NthCond(2024-03-01, 3, WeekDay Monday)`, 2024-03-20, fuel 12 and
`K = 0` (the first candidate [2024-03-18, 2024-03-19) is the latest one
starting at or before the date; the next, [2024-04-08, 2024-04-09),
starts after it). -/
theorem claim_C8_nth_witness :
    ∃ cK, candSeq
        (fun u => nthSeekFrom (fun v => nextRanges 12 (.weekDay 1) v) ((3 : Int) - 1).toNat u)
        (mkTime 2024 2 1 0 0 0 0) 0 = some cK ∧
      lastActiveRange (12 + 1) (.nth (mkTime 2024 2 1 0 0 0 0) 3 (.weekDay 1))
        (mkTime 2024 2 20 0 0 0 0) = some (lastRange cK) :=
  claim_C8_nth_last_active_range.2.2 12 (.weekDay 1) (mkTime 2024 2 1 0 0 0 0) 3
    (mkTime 2024 2 20 0 0 0 0) 0 (by decide)
    (by
      intro j hj
      have hj0 : j = 0 := Nat.le_zero.mp hj
      subst hj0
      exact ⟨[⟨mkTime 2024 2 18 0 0 0 0, some (mkTime 2024 2 19 0 0 0 0)⟩],
        mkTime 2024 2 18 0 0 0 0, mkTime 2024 2 19 0 0 0 0,
        by decide, by decide, by decide, by decide⟩)
    ⟨[⟨mkTime 2024 3 8 0 0 0 0, some (mkTime 2024 3 9 0 0 0 0)⟩], by decide,
      Or.inr (Or.inl ⟨mkTime 2024 3 8 0 0 0 0, by decide, by decide⟩)⟩

/-- C1: RangeSet construction by sort-then-merge (`processRanges`), union
(`unionImpl`) and intersection (`intersectionImpl`) all establish the
canonical invariants: strictly sorted by start, pairwise disjoint,
non-touching, and at most one open-ended range, which is then the last
element. -/
theorem claim_C1_rangeset_invariants :
    (∀ ranges : List DateRange, (∀ r ∈ ranges, validRange r = true) →
      StrictlySorted (processRanges ranges) ∧ DisjointRanges (processRanges ranges) ∧
        NonTouching (processRanges ranges) ∧ OpenEndedLast (processRanges ranges)) ∧
    (∀ a b : List DateRange, canonicalList a = true → canonicalList b = true →
      (StrictlySorted (unionImpl a b) ∧ DisjointRanges (unionImpl a b) ∧
        NonTouching (unionImpl a b) ∧ OpenEndedLast (unionImpl a b)) ∧
      (StrictlySorted (intersectionImpl a b) ∧ DisjointRanges (intersectionImpl a b) ∧
        NonTouching (intersectionImpl a b) ∧ OpenEndedLast (intersectionImpl a b))) :=
  ⟨fun _ h => canonicalList_invariants (processRanges_canonical h),
   fun _ _ ha hb => ⟨canonicalList_invariants (unionImpl_canonical ha hb),
     canonicalList_invariants (intersectionImpl_canonical ha hb)⟩⟩

/-- Witness for C1: the invariants at concrete inputs, with the validity
and canonicity hypotheses discharged by evaluation. -/
theorem claim_C1_rangeset_invariants_witness :
    StrictlySorted (processRanges [⟨0, some 5⟩, ⟨8, some 9⟩, ⟨3, none⟩]) ∧
    NonTouching (unionImpl [⟨0, some 2⟩, ⟨4, some 6⟩] [⟨2, some 4⟩, ⟨7, none⟩]) ∧
    DisjointRanges (intersectionImpl [⟨0, some 2⟩, ⟨4, some 6⟩] [⟨1, some 5⟩]) :=
  ⟨(claim_C1_rangeset_invariants.1 _ (by decide)).1,
   ((claim_C1_rangeset_invariants.2 _ _ (by decide) (by decide)).1).2.2.1,
   ((claim_C1_rangeset_invariants.2 _ _ (by decide) (by decide)).2).2.1⟩

set_option maxRecDepth 100000 in
/-- C2: `AndCond([WeekDay(Monday), TimeBetweenCond(09:00, 17:00,
exclusive)]).lastActiveRange` at Wednesday 2025-06-18 10:00 is
[2025-06-16 09:00, 2025-06-16 17:00), and at Monday 2025-06-16 08:00 it
is the previous Monday's work hours [2025-06-09 09:00, 2025-06-09
17:00). -/
theorem claim_C2_and_scenarios :
    lastActiveRange 40 (.and [.weekDay 1, mkTimeBetweenCond ⟨⟨9, 0⟩, ⟨17, 0⟩⟩ false])
        (mkTime 2025 5 18 10 0 0 0) =
      some (some ⟨mkTime 2025 5 16 9 0 0 0, some (mkTime 2025 5 16 17 0 0 0)⟩) ∧
    lastActiveRange 40 (.and [.weekDay 1, mkTimeBetweenCond ⟨⟨9, 0⟩, ⟨17, 0⟩⟩ false])
        (mkTime 2025 5 16 8 0 0 0) =
      some (some ⟨mkTime 2025 5 9 9 0 0 0, some (mkTime 2025 5 9 17 0 0 0)⟩) :=
  ⟨by decide, by decide⟩

set_option maxRecDepth 100000 in
/-- C3 counterexample: for the condition `NthCond(2024-03-01, 1,
OrCond([WeekDay Monday, WeekDay Wednesday]))` at Tuesday 2024-03-05
12:00, the condition's own last active range is [2024-03-06, 2024-03-07)
(the last range of the current candidate set, which starts in the
future), but wrapping it in a single-child `AndCond` yields none: the
`AndCond` single-child identity fails. -/
theorem claim_C3_counterexample :
    lastActiveRange 21
        (.and [.nth (mkTime 2024 2 1 0 0 0 0) 1 (.or [.weekDay 1, .weekDay 3])])
        (mkTime 2024 2 5 12 0 0 0) = some none ∧
    lastActiveRange 20
        (.nth (mkTime 2024 2 1 0 0 0 0) 1 (.or [.weekDay 1, .weekDay 3]))
        (mkTime 2024 2 5 12 0 0 0) =
      some (some ⟨mkTime 2024 2 6 0 0 0 0, some (mkTime 2024 2 7 0 0 0 0)⟩) :=
  ⟨by decide, by decide⟩

/-- C3 (amended): the single-child identity does hold for `OrCond`: for
every condition, fuel and instant, `OrCond([c]).lastActiveRange` equals
the child's `lastActiveRange` at the child's fuel.  (The `AndCond` half
of the claim is refuted by the counterexample.) -/
theorem claim_C3_or_single_identity (fuel : Nat) (c : Cond) (t : Int) :
    lastActiveRange (fuel + 1) (.or [c]) t = lastActiveRange fuel c t := by
  simp only [lastActiveRange, List.mapM_cons, List.mapM_nil]
  rcases h : lastActiveRange fuel c t with _ | r?
  · simp [h]
  · rcases r? with _ | r
    · simp [h, List.foldl]
    · simp [h, List.foldl, unionImpl]

set_option maxRecDepth 10000 in
/-- C4 counterexample: `TimeDeltaCond(startTime = 0, delta = 0)` contains
the instant 5, yet its next ranges are empty, so there is no first start
at all; and the months-only `TimeSpanCond(1 month)` contains 2024-03-15
10:00 while its next ranges' first start 2024-03-01 00:00 lies in the
past: `nextRanges` resets to the start of the current month without
advancing to the next one. -/
theorem claim_C4_counterexample :
    inRange 2 (.timeDelta 0 0) 5 = some true ∧
    nextRanges 2 (.timeDelta 0 0) 5 = some [] ∧
    inRange 2 (.timeSpan 1 0 0 0 0) (mkTime 2024 2 15 10 0 0 0) = some true ∧
    nextRanges 2 (.timeSpan 1 0 0 0 0) (mkTime 2024 2 15 10 0 0 0) =
      some [⟨mkTime 2024 2 1 0 0 0 0, some (mkTime 2024 3 1 0 0 0 0)⟩] ∧
    mkTime 2024 2 1 0 0 0 0 < mkTime 2024 2 15 10 0 0 0 :=
  ⟨by decide, by decide, by decide, by decide, by decide⟩

/-- C5 (refuted): with `refCond = WeekDay(Monday)` and a `TimeDeltaCond`
whose `validFrom` is Tuesday 2024-03-05 12:00, querying
`FirstAfterStartCond.lastActiveRange` at Wednesday 2024-03-06 12:00
returns a range starting 1 ms before `validFrom` and leaves the child's
`validFrom` moved 1 ms earlier; repeating the identical query then
returns a different range (2 ms before): the ±1 ms adjustment mutates
the child's state through the aliased `DateRange`, and repeated
identical queries disagree. -/
theorem claim_C5_aliasing_mutation :
    faTimeDeltaLastActiveRange (.weekDay 1) 5 (mkTime 2024 2 5 12 0 0 0)
        (mkTime 2024 2 6 12 0 0 0) =
      some (some ⟨mkTime 2024 2 5 12 0 0 0 - 1, none⟩, mkTime 2024 2 5 12 0 0 0 - 1) ∧
    faTimeDeltaLastActiveRange (.weekDay 1) 5 (mkTime 2024 2 5 12 0 0 0 - 1)
        (mkTime 2024 2 6 12 0 0 0) =
      some (some ⟨mkTime 2024 2 5 12 0 0 0 - 2, none⟩, mkTime 2024 2 5 12 0 0 0 - 2) ∧
    (some (⟨mkTime 2024 2 5 12 0 0 0 - 1, none⟩ : DateRange) ≠
      some (⟨mkTime 2024 2 5 12 0 0 0 - 2, none⟩ : DateRange)) :=
  ⟨by decide, by decide, by decide⟩

/-- C6: the overnight exclusive `TimeBetweenCond(22:00, 02:00)` stores
the end minute decremented (01:59); its last active range at 2024-03-15
23:00 is [2024-03-15 22:00, 2024-03-16 02:00), and its next ranges at
2024-03-15 03:00 is that same singleton range: the exported end is the
stored end plus one minute, wrapped to the next day because the start
time exceeds the end time. -/
theorem claim_C6_overnight_time_between :
    mkTimeBetweenRange ⟨⟨22, 0⟩, ⟨2, 0⟩⟩ false = ⟨⟨22, 0⟩, ⟨1, 59⟩⟩ ∧
    lastActiveRange 1 (mkTimeBetweenCond ⟨⟨22, 0⟩, ⟨2, 0⟩⟩ false)
        (mkTime 2024 2 15 23 0 0 0) =
      some (some ⟨mkTime 2024 2 15 22 0 0 0, some (mkTime 2024 2 16 2 0 0 0)⟩) ∧
    nextRanges 1 (mkTimeBetweenCond ⟨⟨22, 0⟩, ⟨2, 0⟩⟩ false)
        (mkTime 2024 2 15 3 0 0 0) =
      some [⟨mkTime 2024 2 15 22 0 0 0, some (mkTime 2024 2 16 2 0 0 0)⟩] :=
  ⟨by decide, by decide, by decide⟩

/-- C9: the validating constructors fail exactly on the error table's
invalid arguments: a month outside 0–11, a day outside 1–31, a weekday
index outside 0–6, a negative or all-zero time span, an empty
combinator; all other arguments are accepted. -/
theorem claim_C9_constructor_errors :
    (∀ s e : Int, (mkMonthBetweenCond s e).isNone ↔ (s < 0 ∨ s > 11 ∨ e < 0 ∨ e > 11)) ∧
    (∀ s e : MonthDay, (mkDateBetweenCond s e).isNone ↔
      (s.month < 0 ∨ s.month > 11 ∨ e.month < 0 ∨ e.month > 11 ∨
        s.day < 1 ∨ s.day > 31 ∨ e.day < 1 ∨ e.day > 31)) ∧
    (∀ s e : Int, (mkDayBetweenCond s e).isNone ↔ (s < 1 ∨ s > 31 ∨ e < 1 ∨ e > 31)) ∧
    (∀ n : Int, (mkWeekDay n).isNone ↔ (n < 0 ∨ n > 6)) ∧
    (∀ mo d h mi s : Int, (mkTimeSpanCond mo d h mi s).isNone ↔
      (mo < 0 ∨ d < 0 ∨ h < 0 ∨ mi < 0 ∨ s < 0 ∨
        (mo = 0 ∧ d = 0 ∧ h = 0 ∧ mi = 0 ∧ s = 0))) ∧
    (∀ cs : List Cond, (mkOrCond cs).isNone ↔ cs = []) ∧
    (∀ cs : List Cond, (mkAndCond cs).isNone ↔ cs = []) := by
  refine ⟨?_, ?_, ?_, ?_, ?_, ?_, ?_⟩
  · intro s e; unfold mkMonthBetweenCond; split <;> simp_all
  · intro s e; unfold mkDateBetweenCond; split <;> simp_all
  · intro s e; unfold mkDayBetweenCond; split <;> simp_all
  · intro n; unfold mkWeekDay; split <;> simp_all
  · intro mo d h mi s; unfold mkTimeSpanCond
    split
    · simp_all
      tauto
    · split <;> simp_all
  · intro cs; cases cs <;> simp [mkOrCond, List.isEmpty]
  · intro cs; cases cs <;> simp [mkAndCond, List.isEmpty]

/-! ### Claim C4: machinery -/

theorem monthOffset_bounds (L m : Int) (hL0 : 0 ≤ L) (hL1 : L ≤ 1)
    (hm0 : 0 ≤ m) (hm1 : m ≤ 11) :
    0 ≤ monthOffset L m ∧ monthOffset L m ≤ 334 + L := by
  interval_cases m <;> simp [monthOffset] <;> omega

theorem dayFromYear_mono {j k : Int} (h : j ≤ k) : dayFromYear j ≤ dayFromYear k := by
  have key : ∀ n : Nat, dayFromYear j ≤ dayFromYear (j + n) := by
    intro n
    induction n with
    | zero => simp
    | succ n ih =>
        have hs := dayFromYear_succ (j + n)
        have hl := leapIdx_nonneg (j + n)
        have he : (j : Int) + ((n : Nat) + 1 : Nat) = (j + n) + 1 := by push_cast; ring
        rw [he, hs]
        omega
  have hk : k = j + ((k - j).toNat : Int) := by omega
  rw [hk]
  exact key _

/-- Uniqueness direction of `yearFromDay_char`. -/
theorem yearFromDay_eq {y z : Int} (h1 : dayFromYear y ≤ z)
    (h2 : z < dayFromYear (y + 1)) : yearFromDay z = y := by
  have hc := yearFromDay_char z
  by_contra hne
  rcases lt_or_gt_of_ne hne with hlt | hgt
  · have := dayFromYear_mono (show yearFromDay z + 1 ≤ y by omega)
    omega
  · have := dayFromYear_mono (show y + 1 ≤ yearFromDay z by omega)
    omega

theorem monthIdxOfDay_ge {k z : Int} (h : monthStartDay k ≤ z) :
    k ≤ monthIdxOfDay z := by
  by_contra hlt
  push_neg at hlt
  have h2 := (monthIdxOfDay_char z).2
  have := monthStartDay_mono (show monthIdxOfDay z + 1 ≤ k by omega)
  omega

/-- A singleton `processRanges` set whose start lies strictly after `t`. -/
theorem singleton_future {s t : Int} {eo : Option Int} (h : t < s) :
    (List.Pairwise (fun a b : DateRange => a.start ≤ b.start)
      (processRanges [⟨s, eo⟩])) ∧
    ∀ r ∈ processRanges [⟨s, eo⟩], t < r.start := by
  rw [processRanges_singleton]
  refine ⟨List.pairwise_singleton _ _, ?_⟩
  intro r hr
  rw [List.mem_singleton] at hr
  subst hr
  exact h

/-- A midnight instant built from an in-range month and day keeps its
year. -/
theorem getFullYear_mkTime_day (y m d : Int) (hm0 : 0 ≤ m) (hm1 : m ≤ 11)
    (hd0 : 1 ≤ d) (hd1 : d ≤ 31) :
    getFullYear (mkTime y m d 0 0 0 0) = y := by
  have hval : mkTime y m d 0 0 0 0 =
      (monthStartDay (12 * y + m) + (d - 1)) * 86400000 := by
    unfold mkTime
    rw [makeDayNum_eq]
    ring
  have hz : dayNumber ((monthStartDay (12 * y + m) + (d - 1)) * 86400000) =
      monthStartDay (12 * y + m) + (d - 1) := by
    unfold dayNumber; omega
  have hms : monthStartDay (12 * y + m) =
      dayFromYear y + monthOffset (leapIdx y) m := by
    unfold monthStartDay
    have e1 : (12 * y + m) / 12 = y := by omega
    have e2 : (12 * y + m) % 12 = m := by omega
    rw [e1, e2]
  have hmo := monthOffset_bounds (leapIdx y) m (leapIdx_nonneg _) (leapIdx_le_one _)
    hm0 hm1
  have hup := dayFromYear_succ y
  have hl := leapIdx_nonneg y
  unfold getFullYear
  rw [hval, hz]
  exact yearFromDay_eq (by omega) (by omega)

/-- Jumping any date of year `y` to year `y + 1` lands strictly after
every instant of year `y`. -/
theorem setFullYear_next_gt (t X : Int) (hX : getFullYear X = getFullYear t) :
    t < setFullYear X (getFullYear X + 1) := by
  rw [hX]
  unfold setFullYear timeWithinDay getMonth getDate
  have hmr := monthOfDay_range (dayNumber X)
  have hdr := dateOfDay_range (dayNumber X)
  have hyc := yearFromDay_char (dayNumber t)
  rw [makeDayNum_eq]
  have hms : monthStartDay (12 * (getFullYear t + 1) + monthOfDay (dayNumber X)) =
      dayFromYear (getFullYear t + 1) +
        monthOffset (leapIdx (getFullYear t + 1)) (monthOfDay (dayNumber X)) := by
    unfold monthStartDay
    have e1 : (12 * (getFullYear t + 1) + monthOfDay (dayNumber X)) / 12 =
        getFullYear t + 1 := by omega
    have e2 : (12 * (getFullYear t + 1) + monthOfDay (dayNumber X)) % 12 =
        monthOfDay (dayNumber X) := by omega
    rw [e1, e2]
  have hmo := monthOffset_bounds (leapIdx (getFullYear t + 1))
    (monthOfDay (dayNumber X)) (leapIdx_nonneg _) (leapIdx_le_one _) hmr.1 hmr.2
  have htd : t < (dayNumber t + 1) * 86400000 := by unfold dayNumber; omega
  have hXm : 0 ≤ X % 86400000 := Int.emod_nonneg _ (by norm_num)
  have hyc2 : dayNumber t < dayFromYear (getFullYear t + 1) := hyc.2
  rw [hms]
  omega

/-- `TimeBetweenCond.nextRanges` starts strictly after the query. -/
theorem tbNextRanges_future (range : DayTimeRange) (t : Int)
    (h0 : 0 ≤ range.start.hour) (h2 : 0 ≤ range.start.minute) :
    (List.Pairwise (fun a b : DateRange => a.start ≤ b.start)
      (tbNextRanges range t)) ∧
    ∀ r ∈ tbNextRanges range t, t < r.start := by
  simp only [tbNextRanges]
  refine singleton_future ?_
  split
  · rw [setDate_shift]
    unfold tbConcrete setHMSms dayNumber
    omega
  · rename_i hgt
    omega

/-- `MonthBetweenCond.nextRanges` starts strictly after the query. -/
theorem mbNextRanges_future (startM endM t : Int) (hs0 : 0 ≤ startM)
    (hs1 : startM ≤ 11) :
    (List.Pairwise (fun a b : DateRange => a.start ≤ b.start)
      (mbNextRanges startM endM t)) ∧
    ∀ r ∈ mbNextRanges startM endM t, t < r.start := by
  simp only [mbNextRanges]
  refine singleton_future ?_
  split
  · exact setFullYear_next_gt t _
      (getFullYear_mkTime_day (getFullYear t) startM 1 hs0 hs1 (by norm_num)
        (by norm_num))
  · rename_i hgt
    push_neg at hgt
    have hval : mkTime (getFullYear t) startM 1 0 0 0 0 =
        (monthStartDay (12 * getFullYear t + startM) + (1 - 1)) * 86400000 := by
      unfold mkTime
      rw [makeDayNum_eq]
      ring
    rw [hval]
    have hchar := (monthIdxOfDay_char (dayNumber t)).2
    have hidx : monthIdxOfDay (dayNumber t) = 12 * getFullYear t + getMonth t := rfl
    rw [hidx] at hchar
    have hmono := monthStartDay_mono (show 12 * getFullYear t + getMonth t + 1 ≤
        12 * getFullYear t + startM by omega)
    have htd : t < (dayNumber t + 1) * 86400000 := by unfold dayNumber; omega
    omega

/-- `DateBetweenCond.nextRanges` starts strictly after the query. -/
theorem dbNextRanges_future (sMD eMD : MonthDay) (t : Int)
    (hm0 : 0 ≤ sMD.month) (hm1 : sMD.month ≤ 11) (hd0 : 1 ≤ sMD.day)
    (hd1 : sMD.day ≤ 31) :
    (List.Pairwise (fun a b : DateRange => a.start ≤ b.start)
      (dbNextRanges sMD eMD t)) ∧
    ∀ r ∈ dbNextRanges sMD eMD t, t < r.start := by
  simp only [dbNextRanges, dbConcrete]
  refine singleton_future ?_
  split
  · exact setFullYear_next_gt t _
      (getFullYear_mkTime_day (getFullYear t) sMD.month sMD.day hm0 hm1 hd0 hd1)
  · rename_i hgt
    omega

/-- `DayBetweenCond.nextRanges` starts strictly after the query. -/
theorem dayBNextRanges_future (startD endD t : Int) (hd0 : 1 ≤ startD)
    (hd1 : startD ≤ 31) :
    (List.Pairwise (fun a b : DateRange => a.start ≤ b.start)
      (dayBNextRanges startD endD t)) ∧
    ∀ r ∈ dayBNextRanges startD endD t, t < r.start := by
  simp only [dayBNextRanges]
  refine singleton_future ?_
  have hval : mkTime (getFullYear t) (getMonth t) startD 0 0 0 0 =
      (monthStartDay (12 * getFullYear t + getMonth t) + (startD - 1)) * 86400000 := by
    unfold mkTime
    rw [makeDayNum_eq]
    ring
  have hidx : monthIdxOfDay (dayNumber t) = 12 * getFullYear t + getMonth t := rfl
  have hchar := monthIdxOfDay_char (dayNumber t)
  rw [hidx] at hchar
  have htd : t < (dayNumber t + 1) * 86400000 := by unfold dayNumber; omega
  split
  · rename_i hle
    have hzX : dayNumber (mkTime (getFullYear t) (getMonth t) startD 0 0 0 0) =
        monthStartDay (12 * getFullYear t + getMonth t) + (startD - 1) := by
      rw [hval]; unfold dayNumber; omega
    unfold setMonth timeWithinDay
    rw [makeDayNum_eq]
    have hXidx : 12 * getFullYear (mkTime (getFullYear t) (getMonth t) startD 0 0 0 0) +
        getMonth (mkTime (getFullYear t) (getMonth t) startD 0 0 0 0) =
        monthIdxOfDay (dayNumber (mkTime (getFullYear t) (getMonth t) startD 0 0 0 0)) :=
      rfl
    have hge : 12 * getFullYear t + getMonth t ≤
        monthIdxOfDay (dayNumber (mkTime (getFullYear t) (getMonth t) startD 0 0 0 0)) := by
      apply monthIdxOfDay_ge
      rw [hzX]
      omega
    have hdX : 1 ≤ getDate (mkTime (getFullYear t) (getMonth t) startD 0 0 0 0) :=
      (dateOfDay_range (dayNumber (mkTime (getFullYear t) (getMonth t) startD 0 0 0 0))).1
    have hmono := monthStartDay_mono (show 12 * getFullYear t + getMonth t + 1 ≤
        monthIdxOfDay (dayNumber (mkTime (getFullYear t) (getMonth t) startD 0 0 0 0)) + 1
      by omega)
    have htwdX : 0 ≤ (mkTime (getFullYear t) (getMonth t) startD 0 0 0 0) % 86400000 :=
      Int.emod_nonneg _ (by norm_num)
    rw [show 12 * getFullYear (mkTime (getFullYear t) (getMonth t) startD 0 0 0 0) +
        (getMonth (mkTime (getFullYear t) (getMonth t) startD 0 0 0 0) + 1) =
        monthIdxOfDay (dayNumber (mkTime (getFullYear t) (getMonth t) startD 0 0 0 0)) + 1
      from by omega]
    omega
  · rename_i hgt
    push_neg at hgt
    rw [hval]
    have hdate : dateOfDay (dayNumber t) =
        dayNumber t - monthStartDay (12 * getFullYear t + getMonth t) + 1 := by
      have h := dateOfDay_eq (dayNumber t)
      rw [hidx] at h
      exact h
    have hgd : getDate t = dateOfDay (dayNumber t) := rfl
    rw [hgd] at hgt
    omega

/-- `TimeSpanCond.nextRanges` starts strictly after the query unless the
span is months-only. -/
theorem tsNextRanges_future (months days hours minutes seconds t : Int)
    (hd : 0 ≤ days) (hh : 0 ≤ hours) (hmi : 0 ≤ minutes) (hs : 0 ≤ seconds)
    (hnb : ¬(days = 0 ∧ hours = 0 ∧ minutes = 0 ∧ seconds = 0)) :
    (List.Pairwise (fun a b : DateRange => a.start ≤ b.start)
      (tsNextRanges months days hours minutes seconds t)) ∧
    ∀ r ∈ tsNextRanges months days hours minutes seconds t, t < r.start := by
  simp only [tsNextRanges]
  refine singleton_future ?_
  split
  · rw [setSeconds_shift]
    unfold setMilliseconds
    omega
  · split
    · rw [setMinutes_shift]
      unfold setSeconds setMilliseconds
      omega
    · split
      · rw [setHoursOnly_shift]
        unfold setMinutes setSeconds setMilliseconds
        omega
      · split
        · rw [setDate_shift]
          unfold setHoursOnly setMinutes setSeconds setMilliseconds dayNumber
          omega
        · exfalso
          omega

/-- `WeekDay.nextRanges` starts strictly after the query. -/
theorem wdNextRanges_future (n t : Int) (h0 : 0 ≤ n) :
    (List.Pairwise (fun a b : DateRange => a.start ≤ b.start)
      (wdNextRanges n t)) ∧
    ∀ r ∈ wdNextRanges n t, t < r.start := by
  have hgd : 0 ≤ getDay t ∧ getDay t < 7 := by
    unfold getDay
    constructor <;> omega
  rw [wdNextRanges_eq]
  refine ⟨List.pairwise_singleton _ _, ?_⟩
  intro r hr
  rw [List.mem_singleton] at hr
  subst hr
  dsimp only
  split
  · unfold startOfDay dayNumber
    omega
  · unfold startOfDay dayNumber
    omega

theorem mergeLoop_sorted :
    ∀ (rest : List DateRange) (cur : DateRange),
      List.Pairwise (fun a b : DateRange => a.start ≤ b.start) (cur :: rest) →
      List.Pairwise (fun a b : DateRange => a.start ≤ b.start) (mergeLoop cur rest) := by
  intro rest
  induction rest with
  | nil => intro cur _; exact List.pairwise_singleton _ _
  | cons next rest ih =>
      intro cur h
      rw [List.pairwise_cons] at h
      obtain ⟨hcur, hrest⟩ := h
      unfold mergeLoop
      split
      · apply ih
        rw [List.pairwise_cons]
        rw [List.pairwise_cons] at hrest
        exact ⟨fun b hb => hcur b (List.mem_cons_of_mem _ hb), hrest.2⟩
      · rw [List.pairwise_cons]
        refine ⟨?_, ih next hrest⟩
        intro r hr
        rcases mergeLoop_starts rest next r hr with he | ⟨x, hx, he⟩
        · rw [he]
          exact hcur next (List.mem_cons_self _ _)
        · rw [he]
          exact hcur x (List.mem_cons_of_mem _ hx)

theorem unionImpl_sorted {a b : List DateRange}
    (ha : List.Pairwise (fun x y : DateRange => x.start ≤ y.start) a)
    (hb : List.Pairwise (fun x y : DateRange => x.start ≤ y.start) b) :
    List.Pairwise (fun x y : DateRange => x.start ≤ y.start) (unionImpl a b) := by
  unfold unionImpl
  split
  · exact hb
  · split
    · exact ha
    · have hs := sortByStart_sorted (a ++ b)
      unfold mergeSortedRanges
      rcases hsx : sortByStart (a ++ b) with _ | ⟨x, xs⟩
      · exact List.Pairwise.nil
      · exact mergeLoop_sorted xs x (hsx ▸ hs)

theorem unionImpl_starts {a b : List DateRange} {r : DateRange}
    (h : r ∈ unionImpl a b) : ∃ x, (x ∈ a ∨ x ∈ b) ∧ r.start = x.start := by
  unfold unionImpl at h
  split at h
  · exact ⟨r, Or.inr h, rfl⟩
  · split at h
    · exact ⟨r, Or.inl h, rfl⟩
    · unfold mergeSortedRanges at h
      rcases hsx : sortByStart (a ++ b) with _ | ⟨x, xs⟩
      · rw [hsx] at h
        cases h
      · rw [hsx] at h
        have hmem : ∀ y, y ∈ x :: xs → y ∈ a ∨ y ∈ b := by
          intro y hy
          have hmy := (sortByStart_perm (a ++ b)).mem_iff.1 (by rw [hsx]; exact hy)
          exact List.mem_append.1 hmy
        rcases mergeLoop_starts xs x r h with he | ⟨y, hy, he⟩
        · exact ⟨x, hmem x (List.mem_cons_self _ _), he⟩
        · exact ⟨y, hmem y (List.mem_cons_of_mem _ hy), he⟩

theorem unionImpl_bound {a b : List DateRange} {t : Int}
    (ha : ∀ r ∈ a, t < r.start) (hb : ∀ r ∈ b, t < r.start) :
    ∀ r ∈ unionImpl a b, t < r.start := by
  intro r hr
  obtain ⟨x, hx | hx, he⟩ := unionImpl_starts hr
  · rw [he]
    exact ha x hx
  · rw [he]
    exact hb x hx

/-- The two-pointer sweep from sorted inputs is sorted, and every output
range starts at or after both heads. -/
theorem interLoop_sorted :
    ∀ (n : Nat) (A B : List DateRange),
      List.Pairwise (fun x y : DateRange => x.start ≤ y.start) A →
      List.Pairwise (fun x y : DateRange => x.start ≤ y.start) B →
      (List.Pairwise (fun x y : DateRange => x.start ≤ y.start) (interLoop n A B)) ∧
      (∀ a as b bs, A = a :: as → B = b :: bs →
        ∀ r ∈ interLoop n A B, max a.start b.start ≤ r.start) := by
  intro n
  induction n with
  | zero =>
      intro A B _ _
      exact ⟨List.Pairwise.nil, by intro a as b bs _ _ r hr; cases hr⟩
  | succ n ih =>
      intro A B hA hB
      match A, B with
      | [], B =>
          refine ⟨?_, ?_⟩
          · rw [interLoop_nil_left]
            exact List.Pairwise.nil
          · intro a as b bs hAeq _ r hr
            cases hAeq
      | x :: xs, [] =>
          refine ⟨?_, ?_⟩
          · rw [interLoop_nil_right]
            exact List.Pairwise.nil
          · intro a as b bs _ hBeq r hr
            cases hBeq
      | a :: as', b :: bs' =>
          have hA' := List.Pairwise.of_cons hA
          have hB' := List.Pairwise.of_cons hB
          have haas : ∀ x ∈ as', a.start ≤ x.start :=
            fun x hx => List.rel_of_pairwise_cons hA hx
          have hbbs : ∀ x ∈ bs', b.start ≤ x.start :=
            fun x hx => List.rel_of_pairwise_cons hB hx
          rcases hoa : a.stop with _ | e1 <;> rcases hob : b.stop with _ | e2
          · have hres : interLoop (n + 1) (a :: as') (b :: bs') =
                ⟨max a.start b.start, none⟩ :: interLoop n as' bs' := by
              simp only [interLoop, hoa, hob]
            have hrec := ih as' bs' hA' hB'
            have hbnd : ∀ r ∈ interLoop n as' bs',
                max a.start b.start ≤ r.start := by
              intro r hr
              cases has : as' with
              | nil => rw [has, interLoop_nil_left] at hr; cases hr
              | cons x xs =>
                  cases hbs : bs' with
                  | nil => rw [has, hbs, interLoop_nil_right] at hr; cases hr
                  | cons y ys =>
                      have h1 := hrec.2 x xs y ys has hbs r hr
                      have h2 : a.start ≤ x.start := haas x (by rw [has]; simp)
                      have h3 : b.start ≤ y.start := hbbs y (by rw [hbs]; simp)
                      simp only [max_le_iff] at h1 ⊢
                      omega
            rw [hres]
            refine ⟨List.Pairwise.cons (fun r hr => hbnd r hr) hrec.1, ?_⟩
            intro a0 as0 b0 bs0 hAeq hBeq r hr
            cases hAeq; cases hBeq
            rcases List.mem_cons.1 hr with rfl | hr'
            · simp
            · exact hbnd r hr'
          · have hres : interLoop (n + 1) (a :: as') (b :: bs') =
                (if max a.start b.start < e2 then
                  [⟨max a.start b.start, some e2⟩] else []) ++
                  interLoop n (a :: as') bs' := by
              simp only [interLoop, hoa, hob]
              split <;> simp
            have hrec := ih (a :: as') bs' hA hB'
            have hbnd : ∀ r ∈ interLoop n (a :: as') bs',
                max a.start b.start ≤ r.start := by
              intro r hr
              cases hbs : bs' with
              | nil => rw [hbs, interLoop_nil_right] at hr; cases hr
              | cons y ys =>
                  have h1 := hrec.2 a as' y ys rfl hbs r hr
                  have h3 : b.start ≤ y.start := hbbs y (by rw [hbs]; simp)
                  simp only [max_le_iff] at h1 ⊢
                  omega
            rw [hres]
            by_cases hkeep : max a.start b.start < e2
            · rw [if_pos hkeep]
              simp only [List.cons_append, List.nil_append]
              refine ⟨List.Pairwise.cons (fun r hr => hbnd r hr) hrec.1, ?_⟩
              intro a0 as0 b0 bs0 hAeq hBeq r hr
              cases hAeq; cases hBeq
              rcases List.mem_cons.1 hr with rfl | hr'
              · simp
              · exact hbnd r hr'
            · rw [if_neg hkeep]
              simp only [List.nil_append]
              refine ⟨hrec.1, ?_⟩
              intro a0 as0 b0 bs0 hAeq hBeq r hr
              cases hAeq; cases hBeq
              exact hbnd r hr
          · have hres : interLoop (n + 1) (a :: as') (b :: bs') =
                (if max a.start b.start < e1 then
                  [⟨max a.start b.start, some e1⟩] else []) ++
                  interLoop n as' (b :: bs') := by
              simp only [interLoop, hoa, hob]
              split <;> simp
            have hrec := ih as' (b :: bs') hA' hB
            have hbnd : ∀ r ∈ interLoop n as' (b :: bs'),
                max a.start b.start ≤ r.start := by
              intro r hr
              cases has : as' with
              | nil => rw [has, interLoop_nil_left] at hr; cases hr
              | cons x xs =>
                  have h1 := hrec.2 x xs b bs' has rfl r hr
                  have h2 : a.start ≤ x.start := haas x (by rw [has]; simp)
                  simp only [max_le_iff] at h1 ⊢
                  omega
            rw [hres]
            by_cases hkeep : max a.start b.start < e1
            · rw [if_pos hkeep]
              simp only [List.cons_append, List.nil_append]
              refine ⟨List.Pairwise.cons (fun r hr => hbnd r hr) hrec.1, ?_⟩
              intro a0 as0 b0 bs0 hAeq hBeq r hr
              cases hAeq; cases hBeq
              rcases List.mem_cons.1 hr with rfl | hr'
              · simp
              · exact hbnd r hr'
            · rw [if_neg hkeep]
              simp only [List.nil_append]
              refine ⟨hrec.1, ?_⟩
              intro a0 as0 b0 bs0 hAeq hBeq r hr
              cases hAeq; cases hBeq
              exact hbnd r hr
          · by_cases h12 : e1 < e2
            · have hres : interLoop (n + 1) (a :: as') (b :: bs') =
                  (if max a.start b.start < min e1 e2 then
                    [⟨max a.start b.start, some (min e1 e2)⟩] else []) ++
                    interLoop n as' (b :: bs') := by
                simp only [interLoop, hoa, hob]
                rw [if_pos h12]
                split <;> simp
              have hrec := ih as' (b :: bs') hA' hB
              have hbnd : ∀ r ∈ interLoop n as' (b :: bs'),
                  max a.start b.start ≤ r.start := by
                intro r hr
                cases has : as' with
                | nil => rw [has, interLoop_nil_left] at hr; cases hr
                | cons x xs =>
                    have h1 := hrec.2 x xs b bs' has rfl r hr
                    have h2 : a.start ≤ x.start := haas x (by rw [has]; simp)
                    simp only [max_le_iff] at h1 ⊢
                    omega
              rw [hres]
              by_cases hkeep : max a.start b.start < min e1 e2
              · rw [if_pos hkeep]
                simp only [List.cons_append, List.nil_append]
                refine ⟨List.Pairwise.cons (fun r hr => hbnd r hr) hrec.1, ?_⟩
                intro a0 as0 b0 bs0 hAeq hBeq r hr
                cases hAeq; cases hBeq
                rcases List.mem_cons.1 hr with rfl | hr'
                · simp
                · exact hbnd r hr'
              · rw [if_neg hkeep]
                simp only [List.nil_append]
                refine ⟨hrec.1, ?_⟩
                intro a0 as0 b0 bs0 hAeq hBeq r hr
                cases hAeq; cases hBeq
                exact hbnd r hr
            · by_cases h21 : e2 < e1
              · have hres : interLoop (n + 1) (a :: as') (b :: bs') =
                    (if max a.start b.start < min e1 e2 then
                      [⟨max a.start b.start, some (min e1 e2)⟩] else []) ++
                      interLoop n (a :: as') bs' := by
                  simp only [interLoop, hoa, hob]
                  rw [if_neg h12, if_pos h21]
                  split <;> simp
                have hrec := ih (a :: as') bs' hA hB'
                have hbnd : ∀ r ∈ interLoop n (a :: as') bs',
                    max a.start b.start ≤ r.start := by
                  intro r hr
                  cases hbs : bs' with
                  | nil => rw [hbs, interLoop_nil_right] at hr; cases hr
                  | cons y ys =>
                      have h1 := hrec.2 a as' y ys rfl hbs r hr
                      have h3 : b.start ≤ y.start := hbbs y (by rw [hbs]; simp)
                      simp only [max_le_iff] at h1 ⊢
                      omega
                rw [hres]
                by_cases hkeep : max a.start b.start < min e1 e2
                · rw [if_pos hkeep]
                  simp only [List.cons_append, List.nil_append]
                  refine ⟨List.Pairwise.cons (fun r hr => hbnd r hr) hrec.1, ?_⟩
                  intro a0 as0 b0 bs0 hAeq hBeq r hr
                  cases hAeq; cases hBeq
                  rcases List.mem_cons.1 hr with rfl | hr'
                  · simp
                  · exact hbnd r hr'
                · rw [if_neg hkeep]
                  simp only [List.nil_append]
                  refine ⟨hrec.1, ?_⟩
                  intro a0 as0 b0 bs0 hAeq hBeq r hr
                  cases hAeq; cases hBeq
                  exact hbnd r hr
              · have hres : interLoop (n + 1) (a :: as') (b :: bs') =
                    (if max a.start b.start < min e1 e2 then
                      [⟨max a.start b.start, some (min e1 e2)⟩] else []) ++
                      interLoop n as' bs' := by
                  simp only [interLoop, hoa, hob]
                  rw [if_neg h12, if_neg h21]
                  split <;> simp
                have hrec := ih as' bs' hA' hB'
                have hbnd : ∀ r ∈ interLoop n as' bs',
                    max a.start b.start ≤ r.start := by
                  intro r hr
                  cases has : as' with
                  | nil => rw [has, interLoop_nil_left] at hr; cases hr
                  | cons x xs =>
                      cases hbs : bs' with
                      | nil => rw [has, hbs, interLoop_nil_right] at hr; cases hr
                      | cons y ys =>
                          have h1 := hrec.2 x xs y ys has hbs r hr
                          have h2 : a.start ≤ x.start := haas x (by rw [has]; simp)
                          have h3 : b.start ≤ y.start := hbbs y (by rw [hbs]; simp)
                          simp only [max_le_iff] at h1 ⊢
                          omega
                rw [hres]
                by_cases hkeep : max a.start b.start < min e1 e2
                · rw [if_pos hkeep]
                  simp only [List.cons_append, List.nil_append]
                  refine ⟨List.Pairwise.cons (fun r hr => hbnd r hr) hrec.1, ?_⟩
                  intro a0 as0 b0 bs0 hAeq hBeq r hr
                  cases hAeq; cases hBeq
                  rcases List.mem_cons.1 hr with rfl | hr'
                  · simp
                  · exact hbnd r hr'
                · rw [if_neg hkeep]
                  simp only [List.nil_append]
                  refine ⟨hrec.1, ?_⟩
                  intro a0 as0 b0 bs0 hAeq hBeq r hr
                  cases hAeq; cases hBeq
                  exact hbnd r hr

theorem intersectionImpl_sorted {a b : List DateRange}
    (ha : List.Pairwise (fun x y : DateRange => x.start ≤ y.start) a)
    (hb : List.Pairwise (fun x y : DateRange => x.start ≤ y.start) b) :
    List.Pairwise (fun x y : DateRange => x.start ≤ y.start)
      (intersectionImpl a b) := by
  unfold intersectionImpl
  split
  · exact List.Pairwise.nil
  · exact (interLoop_sorted (a.length + b.length) a b ha hb).1

theorem setMilliseconds_dec (x : Int) :
    setMilliseconds x (getMilliseconds x - 1) = x - 1 := by
  unfold setMilliseconds getMilliseconds
  omega

theorem mapM_option_mem {α β : Type} (f : α → Option β) :
    ∀ (l : List α) (out : List β), l.mapM f = some out →
      ∀ b ∈ out, ∃ a ∈ l, f a = some b := by
  intro l
  induction l with
  | nil =>
      intro out h b hb
      rw [List.mapM_nil, Option.pure_def] at h
      injection h with h
      subst h
      cases hb
  | cons x xs ih =>
      intro out h b hb
      rw [List.mapM_cons] at h
      simp only [Option.bind_eq_bind, Option.pure_def] at h
      rw [Option.bind_eq_some] at h
      obtain ⟨s, hfx, h⟩ := h
      rw [Option.bind_eq_some] at h
      obtain ⟨rest, hrest, h⟩ := h
      injection h with h
      subst h
      rcases List.mem_cons.1 hb with rfl | hb'
      · exact ⟨x, List.mem_cons_self _ _, hfx⟩
      · obtain ⟨a, ha, hfa⟩ := ih rest hrest b hb'
        exact ⟨a, List.mem_cons_of_mem _ ha, hfa⟩

/-- In a sorted set whose first date is after `sa`, every range starts
after `sa`. -/
theorem sorted_first_bound {rs : List DateRange} {sa fd : Int}
    (hs : List.Pairwise (fun a b : DateRange => a.start ≤ b.start) rs)
    (hf : firstDate rs = some fd) (hlt : sa < fd) : ∀ r ∈ rs, sa < r.start := by
  cases rs with
  | nil => intro r hr; cases hr
  | cons c cs =>
      have hcf : c.start = fd := by
        simp only [firstDate] at hf
        injection hf
      intro r hr
      rcases List.mem_cons.1 hr with rfl | hr'
      · omega
      · have := List.rel_of_pairwise_cons hs hr'
        omega

theorem nthAdvance_sorted (next : Int → Option (List DateRange))
    (hnext : ∀ u rs, next u = some rs →
      List.Pairwise (fun a b : DateRange => a.start ≤ b.start) rs) :
    ∀ (k : Nat) (cur out : List DateRange),
      List.Pairwise (fun a b : DateRange => a.start ≤ b.start) cur →
      nthAdvance next k cur = some out →
      List.Pairwise (fun a b : DateRange => a.start ≤ b.start) out := by
  intro k
  induction k with
  | zero =>
      intro cur out hcur h
      injection h with h
      subst h
      exact hcur
  | succ k ih =>
      intro cur out hcur h
      simp only [nthAdvance] at h
      rcases hlr : lastRange cur with _ | r
      · simp only [hlr] at h
        injection h with h
        subst h
        exact List.Pairwise.nil
      · simp only [hlr] at h
        rcases hrs : r.stop with _ | e
        · simp only [hrs] at h
          injection h with h
          subst h
          exact List.Pairwise.nil
        · simp only [hrs] at h
          rcases hne : next e with _ | cur'
          · simp only [hne] at h
            exact Option.noConfusion h
          · simp only [hne] at h
            exact ih cur' out (hnext e cur' hne) h

theorem nthSeekFrom_sorted (next : Int → Option (List DateRange))
    (hnext : ∀ u rs, next u = some rs →
      List.Pairwise (fun a b : DateRange => a.start ≤ b.start) rs)
    (k : Nat) (sa : Int) (out : List DateRange)
    (h : nthSeekFrom next k sa = some out) :
    List.Pairwise (fun a b : DateRange => a.start ≤ b.start) out := by
  unfold nthSeekFrom at h
  rcases hns : next sa with _ | c0
  · simp only [hns] at h
    exact Option.noConfusion h
  · simp only [hns] at h
    exact nthAdvance_sorted next hnext k c0 out (hnext sa c0 hns) h

/-- The `NthCond.nextRanges` loop returns a sorted set of strictly
future ranges. -/
theorem nthNRLoop_bound (seek : Int → Option (List DateRange))
    (hseek : ∀ u rs, seek u = some rs →
      List.Pairwise (fun a b : DateRange => a.start ≤ b.start) rs) :
    ∀ (k : Nat) (sa : Int) (cand out : List DateRange),
      List.Pairwise (fun a b : DateRange => a.start ≤ b.start) cand →
      nthNRLoop seek k sa cand = some out →
      (List.Pairwise (fun a b : DateRange => a.start ≤ b.start) out) ∧
      ∀ r ∈ out, sa < r.start := by
  intro k
  induction k with
  | zero =>
      intro sa cand out _ h
      exact Option.noConfusion h
  | succ k ih =>
      intro sa cand out hcand h
      simp only [nthNRLoop] at h
      rcases hfc : firstDate cand with _ | fd
      · simp only [hfc] at h
        injection h with h
        subst h
        have hnil : cand = [] := by
          cases cand with
          | nil => rfl
          | cons c cs => simp [firstDate] at hfc
        subst hnil
        exact ⟨List.Pairwise.nil, by intro r hr; cases hr⟩
      · simp only [hfc] at h
        by_cases hlt : sa < fd
        · rw [if_pos hlt] at h
          injection h with h
          subst h
          exact ⟨hcand, sorted_first_bound hcand hfc hlt⟩
        · rw [if_neg hlt] at h
          rcases hld : lastDate cand with _ | e
          · simp only [hld] at h
            injection h with h
            subst h
            exact ⟨List.Pairwise.nil, by intro r hr; cases hr⟩
          · simp only [hld] at h
            rcases hse : seek e with _ | cand'
            · simp only [hse] at h
              exact Option.noConfusion h
            · simp only [hse] at h
              exact ih sa cand' out (hseek e cand' hse) h

/-- `AndCond`'s expansion loop only unions child sets, so it preserves
sortedness. -/
theorem andExpand_sorted (next : Int → Option (List DateRange))
    (hnext : ∀ u rs, next u = some rs →
      List.Pairwise (fun a b : DateRange => a.start ≤ b.start) rs) :
    ∀ (k : Nat) (bound : Option Int) (condRanges acc out : List DateRange),
      List.Pairwise (fun a b : DateRange => a.start ≤ b.start) acc →
      andExpand next k bound condRanges acc = some out →
      List.Pairwise (fun a b : DateRange => a.start ≤ b.start) out := by
  intro k
  induction k with
  | zero =>
      intro bound cr acc out _ h
      exact Option.noConfusion h
  | succ k ih =>
      intro bound cr acc out hacc h
      rcases bound with _ | b
      · simp only [andExpand] at h
        rcases hld : lastDate cr with _ | e
        · simp only [hld] at h
          injection h with h
          subst h
          exact hacc
        · simp only [hld] at h
          injection h with h
          subst h
          exact hacc
      · simp only [andExpand] at h
        rcases hld : lastDate cr with _ | e
        · simp only [hld] at h
          injection h with h
          subst h
          exact hacc
        · simp only [hld] at h
          by_cases heb : e ≤ b
          · rw [if_pos heb] at h
            rcases hne : next e with _ | cr'
            · simp only [hne] at h
              exact Option.noConfusion h
            · simp only [hne] at h
              exact ih (some b) cr' (unionImpl acc cr') out
                (unionImpl_sorted hacc (hnext e cr' hne)) h
          · rw [if_neg heb] at h
            injection h with h
            subst h
            exact hacc

/-- A property preserved by every step of an option-valued fold is
preserved by the whole fold. -/
theorem foldlM_option_inv {α : Type} (P : List DateRange → Prop)
    (g : List DateRange → α → Option (List DateRange)) :
    ∀ (l : List α), (∀ acc x out, x ∈ l → P acc → g acc x = some out → P out) →
    ∀ (acc out : List DateRange), P acc → List.foldlM g acc l = some out → P out := by
  intro l
  induction l with
  | nil =>
      intro _ acc out hacc h
      rw [List.foldlM_nil, Option.pure_def] at h
      injection h with h
      subst h
      exact hacc
  | cons x xs ih =>
      intro hg acc out hacc h
      rw [List.foldlM_cons] at h
      simp only [Option.bind_eq_bind] at h
      rw [Option.bind_eq_some] at h
      obtain ⟨acc', hstep, h⟩ := h
      exact ih (fun a y o hy => hg a y o (List.mem_cons_of_mem _ hy))
        acc' out (hg acc x acc' (List.mem_cons_self _ _) hacc hstep) h

/-- Folding `unionImpl` over sorted, strictly future sets yields a
sorted, strictly future set. -/
theorem foldl_union_sorted_bound {t : Int} :
    ∀ (sets : List (List DateRange)) (acc : List DateRange),
      List.Pairwise (fun x y : DateRange => x.start ≤ y.start) acc →
      (∀ r ∈ acc, t < r.start) →
      (∀ s ∈ sets, (List.Pairwise (fun x y : DateRange => x.start ≤ y.start) s) ∧
        ∀ r ∈ s, t < r.start) →
      (List.Pairwise (fun x y : DateRange => x.start ≤ y.start)
        (sets.foldl (fun acc s => unionImpl acc s) acc)) ∧
      ∀ r ∈ sets.foldl (fun acc s => unionImpl acc s) acc, t < r.start := by
  intro sets
  induction sets with
  | nil =>
      intro acc h1 h2 _
      exact ⟨h1, h2⟩
  | cons s ss ih =>
      intro acc h1 h2 h3
      simp only [List.foldl_cons]
      have hs := h3 s (List.mem_cons_self _ _)
      exact ih (unionImpl acc s) (unionImpl_sorted h1 hs.1)
        (unionImpl_bound h2 hs.2) (fun s' hs' => h3 s' (List.mem_cons_of_mem _ hs'))

/-- The central C4 lemma: on a well-formed tree with no months-only time
span, every `nextRanges` result is sorted by start and strictly future. -/
theorem nextRanges_future :
    ∀ (fuel : Nat) (c : Cond) (t : Int) (rs : List DateRange),
      WF c → NoBareMonthSpan c → nextRanges fuel c t = some rs →
      (List.Pairwise (fun a b : DateRange => a.start ≤ b.start) rs) ∧
      ∀ r ∈ rs, t < r.start := by
  intro fuel
  induction fuel with
  | zero =>
      intro c t rs _ _ h
      exact Option.noConfusion h
  | succ fuel ih =>
      intro c t rs hwf hnb h
      cases c with
      | timeDelta s d =>
          simp only [nextRanges, Option.bind_eq_bind, Option.pure_def] at h
          rw [Option.bind_eq_some] at h
          obtain ⟨r?, hr?, h⟩ := h
          split at h
          · injection h with h
            subst h
            exact ⟨List.Pairwise.nil, by intro r hr; cases hr⟩
          · rename_i hIsIn
            injection h with h
            subst h
            refine singleton_future ?_
            cases fuel with
            | zero => exact Option.noConfusion hr?
            | succ fuel' =>
                simp only [lastActiveRange] at hr?
                injection hr? with hr?
                by_cases hst : s + d ≤ t
                · rw [if_pos hst] at hr?
                  subst hr?
                  exfalso
                  apply hIsIn
                  simp [inDateRangeImpl, hst]
                · rw [if_neg hst] at hr?
                  omega
      | timeBetween range =>
          cases hwf with
          | timeBetween _ h0 h1 h2 h3 h4 h5 h6 h7 =>
              simp only [nextRanges] at h
              injection h with h
              subst h
              exact tbNextRanges_future range t h0 h2
      | monthBetween sM eM =>
          cases hwf with
          | monthBetween _ _ hs0 hs1 he0 he1 =>
              simp only [nextRanges] at h
              injection h with h
              subst h
              exact mbNextRanges_future sM eM t hs0 hs1
      | dateBetween sMD eMD =>
          cases hwf with
          | dateBetween _ _ hm0 hm1 hd0 hd1 he0 he1 he2 he3 =>
              simp only [nextRanges] at h
              injection h with h
              subst h
              exact dbNextRanges_future sMD eMD t hm0 hm1 hd0 hd1
      | dayBetween sD eD =>
          cases hwf with
          | dayBetween _ _ hd0 hd1 he0 he1 =>
              simp only [nextRanges] at h
              injection h with h
              subst h
              exact dayBNextRanges_future sD eD t hd0 hd1
      | timeSpan mo d hrz mi s =>
          cases hwf with
          | timeSpan _ _ _ _ _ hm0 hd0 hh0 hmi0 hs0 =>
              cases hnb with
              | timeSpan _ _ _ _ _ hnbs =>
                  simp only [nextRanges] at h
                  injection h with h
                  subst h
                  exact tsNextRanges_future mo d hrz mi s t hd0 hh0 hmi0 hs0 hnbs
      | weekDay n =>
          cases hwf with
          | weekDay _ h0 h1 =>
              simp only [nextRanges] at h
              injection h with h
              subst h
              exact wdNextRanges_future n t h0
      | or cs =>
          cases hwf with
          | or _ hall =>
              cases hnb with
              | or _ hnall =>
                  simp only [nextRanges, Option.bind_eq_bind, Option.pure_def] at h
                  rw [Option.bind_eq_some] at h
                  obtain ⟨sets, hsets, h⟩ := h
                  injection h with h
                  subst h
                  apply foldl_union_sorted_bound sets [] List.Pairwise.nil
                    (by intro r hr; cases hr)
                  intro s hs
                  obtain ⟨c', hc', hns⟩ := mapM_option_mem _ cs sets hsets s hs
                  exact ih c' t s (hall c' hc') (hnall c' hc') hns
      | and cs =>
          cases hwf with
          | and _ hall =>
              cases hnb with
              | and _ hnall =>
                  simp only [nextRanges, Option.bind_eq_bind, Option.pure_def] at h
                  rw [Option.bind_eq_some] at h
                  obtain ⟨pairs, hpairs, h⟩ := h
                  split at h
                  · injection h with h
                    subst h
                    exact ⟨List.Pairwise.nil, by intro r hr; cases hr⟩
                  · rw [Option.bind_eq_some] at h
                    obtain ⟨inter, hinter, h⟩ := h
                    injection h with h
                    subst h
                    have hinterSorted :
                        List.Pairwise (fun x y : DateRange => x.start ≤ y.start) inter := by
                      refine foldlM_option_inv
                        (fun l => List.Pairwise (fun x y : DateRange => x.start ≤ y.start) l)
                        _ cs ?_ _ inter ?_ hinter
                      · intro acc c' out hc' hacc hstep
                        simp only [] at hstep
                        rw [Option.bind_eq_some] at hstep
                        obtain ⟨condR, hcondR, hstep⟩ := hstep
                        rw [Option.bind_eq_some] at hstep
                        obtain ⟨condRanges, hcr, hstep⟩ := hstep
                        rw [Option.bind_eq_some] at hstep
                        obtain ⟨unionRanges, hur, hstep⟩ := hstep
                        injection hstep with hstep
                        subst hstep
                        have hcrs := (ih c' _ condRanges (hall c' hc') (hnall c' hc') hcr).1
                        have haccs :
                            List.Pairwise (fun x y : DateRange => x.start ≤ y.start)
                              (unionImpl [] condRanges) := hcrs
                        have hurs := andExpand_sorted _
                          (fun u ru hu => (ih c' u ru (hall c' hc') (hnall c' hc') hu).1)
                          fuel _ condRanges (unionImpl [] condRanges) unionRanges haccs hur
                        exact intersectionImpl_sorted hacc hurs
                      · rw [processRanges_singleton]
                        exact List.pairwise_singleton _ _
                    constructor
                    · exact List.Pairwise.sublist (List.filter_sublist _) hinterSorted
                    · intro r hr
                      have hdec := (List.mem_filter.1 hr).2
                      exact of_decide_eq_true hdec
      | nth a n child =>
          cases hwf with
          | nth _ _ _ hwfc =>
              cases hnb with
              | nth _ _ _ hnbc =>
                  simp only [nextRanges, Option.bind_eq_bind] at h
                  rw [Option.bind_eq_some] at h
                  obtain ⟨cand0, hc0, h⟩ := h
                  have hseek : ∀ (u : Int) (rs' : List DateRange),
                      nthSeekFrom (fun v => nextRanges fuel child v) (n - 1).toNat u =
                        some rs' →
                      List.Pairwise (fun x y : DateRange => x.start ≤ y.start) rs' :=
                    fun u rs' hu => nthSeekFrom_sorted _
                      (fun v rv hv => (ih child v rv hwfc hnbc hv).1) _ _ _ hu
                  have hc0s : List.Pairwise (fun x y : DateRange => x.start ≤ y.start)
                      cand0 := nthSeekFrom_sorted _
                    (fun v rv hv => (ih child v rv hwfc hnbc hv).1) _ _ _ hc0
                  exact nthNRLoop_bound _ hseek fuel t cand0 rs hc0s h
      | firstAfterStart rc relc incl =>
          cases hwf with
          | firstAfterStart _ _ _ hwfrc hwfrel =>
              cases hnb with
              | firstAfterStart _ _ _ hnbrc hnbrel =>
                  simp only [nextRanges, Option.bind_eq_bind, Option.pure_def] at h
                  rw [Option.bind_eq_some] at h
                  obtain ⟨refR?, h1, h⟩ := h
                  have key : ∀ (refRs : List DateRange),
                      nextRanges fuel rc t = some refRs →
                      List.foldlM (fun acc r =>
                        (nextRanges fuel relc (if incl = true then
                          setMilliseconds r.start (getMilliseconds r.start - 1)
                          else r.start)).bind
                          fun ch => some (unionImpl acc ch)) [] refRs = some rs →
                      (List.Pairwise (fun a b : DateRange => a.start ≤ b.start) rs) ∧
                      ∀ r ∈ rs, t < r.start := by
                    intro refRs hrefRs hfold
                    have hrfacts := ih rc t refRs hwfrc hnbrc hrefRs
                    refine foldlM_option_inv
                      (fun l => (List.Pairwise (fun a b : DateRange => a.start ≤ b.start) l) ∧
                        ∀ r ∈ l, t < r.start) _ refRs ?_ [] rs
                      ⟨List.Pairwise.nil, by intro r hr; cases hr⟩ hfold
                    intro acc x out hx hacc hstep
                    simp only [] at hstep
                    rw [Option.bind_eq_some] at hstep
                    obtain ⟨ch, hch, hstep⟩ := hstep
                    injection hstep with hstep
                    subst hstep
                    have hchf := ih relc _ ch hwfrel hnbrel hch
                    have hxb : t < x.start := hrfacts.2 x hx
                    have hchb : ∀ y ∈ ch, t < y.start := by
                      intro y hy
                      have hys := hchf.2 y hy
                      by_cases hincl : incl = true
                      · rw [if_pos hincl, setMilliseconds_dec] at hys
                        omega
                      · rw [if_neg hincl] at hys
                        omega
                    exact ⟨unionImpl_sorted hacc.1 hchf.1, unionImpl_bound hacc.2 hchb⟩
                  split at h
                  · simp only [Option.some_bind] at h
                    rw [Option.bind_eq_some] at h
                    obtain ⟨refRs, h4, h⟩ := h
                    exact key refRs h4 h
                  · rename_i refR
                    split at h
                    · rw [Option.bind_eq_some] at h
                      obtain ⟨rs1, h3, h⟩ := h
                      split at h
                      · rename_i fd hfd
                        split at h
                        · rename_i hlt
                          simp only [Option.some_bind] at h
                          injection h with h
                          subst h
                          have hs1 := ih relc _ rs1 hwfrel hnbrel h3
                          exact ⟨hs1.1, sorted_first_bound hs1.1 hfd hlt⟩
                        · simp only [Option.some_bind] at h
                          rw [Option.bind_eq_some] at h
                          obtain ⟨refRs, h4, h⟩ := h
                          exact key refRs h4 h
                      · simp only [Option.some_bind] at h
                        rw [Option.bind_eq_some] at h
                        obtain ⟨refRs, h4, h⟩ := h
                        exact key refRs h4 h
                    · simp only [Option.some_bind] at h
                      rw [Option.bind_eq_some] at h
                      obtain ⟨refRs, h4, h⟩ := h
                      exact key refRs h4 h

/-- C4 (amended): for a well-formed condition tree with no months-only
`TimeSpanCond`, every range `nextRanges` returns starts strictly after
the query instant — in particular the first start, when the result is
non-empty, is strictly future, whether or not the condition contains the
instant.  (The claim as stated is refuted by the counterexample: a
contained `TimeDeltaCond` has an empty next-range set with no first
start, and a months-only `TimeSpanCond` returns the start of the current
month.) -/
theorem claim_C4_next_strictly_future :
    ∀ (fuel : Nat) (c : Cond) (t : Int) (rs : List DateRange),
      WF c → NoBareMonthSpan c → nextRanges fuel c t = some rs →
      (∀ r ∈ rs, t < r.start) ∧ ∀ f, firstDate rs = some f → t < f := by
  intro fuel c t rs hwf hnb h
  have hmain := nextRanges_future fuel c t rs hwf hnb h
  refine ⟨hmain.2, ?_⟩
  intro f hf
  cases rs with
  | nil => exact Option.noConfusion hf
  | cons r rest =>
      have hrf : r.start = f := by
        simp only [firstDate] at hf
        injection hf
      have := hmain.2 r (List.mem_cons_self _ _)
      omega

/-- Witness for C4: `WeekDay(Monday)` at Tuesday 2024-03-05 12:00 whose
next range is the following Monday. -/
theorem claim_C4_next_witness :
    (∀ r ∈ [(⟨mkTime 2024 2 11 0 0 0 0, some (mkTime 2024 2 12 0 0 0 0)⟩ : DateRange)],
      mkTime 2024 2 5 12 0 0 0 < r.start) ∧
    ∀ f, firstDate
        [(⟨mkTime 2024 2 11 0 0 0 0, some (mkTime 2024 2 12 0 0 0 0)⟩ : DateRange)] =
        some f →
      mkTime 2024 2 5 12 0 0 0 < f :=
  claim_C4_next_strictly_future 1 (.weekDay 1) (mkTime 2024 2 5 12 0 0 0)
    [⟨mkTime 2024 2 11 0 0 0 0, some (mkTime 2024 2 12 0 0 0 0)⟩]
    (WF.weekDay 1 (by norm_num) (by norm_num)) (NoBareMonthSpan.weekDay 1) (by decide)

end Timecond
